import Mathlib

/-!
Verification development for the page-renumbering traversal engine
(`src/utils/renumber.py`) and the binary word dumper (`src/utils/dump.py`).

The Python code is shallowly embedded as executable Lean functions:

* a file system is a finite association list from file names (the path token
  as it appears after the `$` sentinel) to the list of raw lines of that file,
  every line carrying its terminator character exactly as Python's
  `for line in f` yields it;
* `classify` mirrors `parseLine`'s dispatch on `INSERT_RE`/`PAGE_RE`
  (both applied with `re.match`, i.e. anchored at the start of the line);
* `goFile`/`goLines` mirror `renumber` (live mode): they thread the shared
  `nextPage` counter, accumulate the printed notices, buffer this file's
  output lines, and commit the rewrite when the file's traversal completes;
* `dryFile`/`dryLines` mirror `dryRun`: same classification and counter,
  no writes;
* recursion through insertion directives is bounded by explicit fuel
  (the Python recurses on the call stack; a reference cycle would recurse
  without bound, which the model renders as fuel exhaustion, reported the
  same way as a failed file open: an aborted run);
* the `marks` field is ghost instrumentation: the ordered list of
  (declared, expected) pairs for every page marker consumed, used to state
  the counter invariant.  `notices` is exactly what the code prints.
-/

namespace AgcSpec

/-- Horizontal whitespace, the character class `[ \t]` of the two regexes. -/
def isWs (c : Char) : Bool := c = ' ' || c = '\t'

/-- The character class `[0-9]` of `PAGE_RE`. -/
def isDigitCh (c : Char) : Bool := 48 ≤ c.toNat && c.toNat ≤ 57

/-- Numeric value of a decimal digit character. -/
def digitVal (c : Char) : Nat := c.toNat - 48

/-- Value of a big-endian decimal digit string, as Python's `int` computes it. -/
def digitsToNat (ds : List Char) : Nat := ds.foldl (fun a c => a * 10 + digitVal c) 0

/-- `INSERT_RE = re.compile(r'$([^ \t]+)')` applied with `re.match`: the line
must begin with the `$` sentinel, and the captured group is the maximal
nonempty run of characters other than space and tab that follows it.  Note
that the line terminator `\n` is *not* in the excluded class, so it is part
of the captured token when the `$` run extends to the end of the line. -/
def insertTok (line : String) : Option String :=
  match line.data with
  | '$' :: rest =>
    match rest.takeWhile (fun c => !isWs c) with
    | [] => none
    | tok => some (String.mk tok)
  | _ => none

/-- `PAGE_RE = re.compile(r'##[ \t]*Page[ \t]+([0-9]+)')` applied with
`re.match`: the line must begin with `##` (no leading whitespace), then
optional horizontal whitespace, then `Page`, then at least one whitespace
character, then a maximal nonempty digit run, whose value is returned.
The regex is not end-anchored, so arbitrary text may follow the number.
All quantifiers here are determined (no backtracking is possible because
the digit and whitespace classes are disjoint and `P` is not whitespace). -/
def pageNum (line : String) : Option Nat :=
  match line.data with
  | '#' :: '#' :: r1 =>
    match r1.dropWhile isWs with
    | 'P' :: 'a' :: 'g' :: 'e' :: r2 =>
      match r2 with
      | c :: r3 =>
        if isWs c then
          match (r3.dropWhile isWs).takeWhile isDigitCh with
          | [] => none
          | ds => some (digitsToNat ds)
        else none
      | [] => none
    | _ => none
  | _ => none

/-- Classification of one raw line, in the order `parseLine` tests:
`INSERT_RE.match` first, then `PAGE_RE.match`, otherwise a plain line. -/
inductive LineKind where
  | ins (p : String)
  | page (d : Nat)
  | plain
  deriving DecidableEq, Repr

/-- The dispatch of `parseLine` on a single line. -/
def classify (line : String) : LineKind :=
  match insertTok line with
  | some p => .ins p
  | none =>
    match pageNum line with
    | some d => .page d
    | none => .plain

/-- Little-endian decimal digits, with fuel for structural recursion. -/
def digitsRevGo : Nat → Nat → List Nat
  | 0, _ => []
  | fuel+1, n => if n = 0 then [] else n % 10 :: digitsRevGo fuel (n / 10)

/-- Little-endian decimal digits of `n` (empty for 0). -/
def digitsRev (n : Nat) : List Nat := digitsRevGo n n

/-- Decimal digit character. -/
def digitChar (d : Nat) : Char := Char.ofNat (48 + d)

/-- The characters of Python's `str(n)` for a nonnegative integer. -/
def natChars (n : Nat) : List Char :=
  if n = 0 then ['0'] else ((digitsRev n).map digitChar).reverse

/-- Python's `str(n)`. -/
def natStr (n : Nat) : String := String.mk (natChars n)

/-- The replacement line built on a page-number mismatch:
`'## Page ' + str(nextPage) + '\n'`. -/
def lineRepl (np : Nat) : String := "## Page " ++ natStr np ++ "\n"

/-- The modeled directory: file name to list of raw lines. -/
abbrev FS := List (String × List String)

/-- Look a file up (Python `open` succeeding or raising). -/
def fsFind : FS → String → Option (List String)
  | [], _ => none
  | (g, ls) :: t, f => if g = f then some ls else fsFind t f

/-- Overwrite (or create) a file, as `output.rename(input)` does. -/
def fsSet : FS → String → List String → FS
  | [], f, ls => [(f, ls)]
  | (g, m) :: t, f, ls => if g = f then (f, ls) :: t else (g, m) :: fsSet t f ls

/-- Result of one live `renumber` call on a file: notices printed (in order),
ghost marker trace, files opened (in traversal order; head is this file),
the resulting file system, and on success the final `nextPage`.
`final = none` models the fatal abort (open failure or unbounded
recursion). -/
structure VRes where
  notices : List (Nat × Nat)
  marks : List (Nat × Nat)
  visited : List String
  fs : FS
  final : Option Nat
  deriving DecidableEq, Repr

/-- Result of processing a suffix of lines of one file in live mode:
as `VRes`, plus the buffered output lines written to the temporary file
(partial if the run aborts mid-file) and, on success, whether any line of
this file was replaced (`changes` in `renumber`). -/
structure SRes where
  notices : List (Nat × Nat)
  marks : List (Nat × Nat)
  visited : List String
  fs : FS
  out : List String
  final : Option (Nat × Bool)
  deriving DecidableEq, Repr

/-- Result of a dry-run call: `dryRun` opens files read-only and writes
nothing, so no file system is produced. -/
structure DRes where
  notices : List (Nat × Nat)
  marks : List (Nat × Nat)
  visited : List String
  final : Option Nat
  deriving DecidableEq, Repr

/-- Live traversal of the remaining lines of one file.  `v` performs the
recursive `renumber` call of `parseLine` on an insertion directive.  For a
page marker the declared number is compared with `nextPage`; on mismatch the
notice `(declared, expected)` is printed and the canonical replacement line
is buffered instead of the original; the counter advances unconditionally.
All other lines are buffered unchanged.  An abort inside a child propagates,
keeping the notices already printed and the rewrites already committed. -/
def goLines (v : String → FS → Nat → VRes) : FS → Nat → List String → SRes
  | fs, np, [] => ⟨[], [], [], fs, [], some (np, false)⟩
  | fs, np, line :: rest =>
    match classify line with
    | .ins p =>
      let r := v p fs np
      match r.final with
      | none => ⟨r.notices, r.marks, r.visited, r.fs, [], none⟩
      | some np2 =>
        let s := goLines v r.fs np2 rest
        ⟨r.notices ++ s.notices, r.marks ++ s.marks, r.visited ++ s.visited, s.fs,
          line :: s.out, s.final⟩
    | .page d =>
      if d = np then
        let s := goLines v fs (np + 1) rest
        ⟨s.notices, (d, np) :: s.marks, s.visited, s.fs, line :: s.out, s.final⟩
      else
        let s := goLines v fs (np + 1) rest
        ⟨(d, np) :: s.notices, (d, np) :: s.marks, s.visited, s.fs, lineRepl np :: s.out,
          match s.final with
          | none => none
          | some (np2, _) => some (np2, true)⟩
    | .plain =>
      let s := goLines v fs np rest
      ⟨s.notices, s.marks, s.visited, s.fs, line :: s.out, s.final⟩

/-- Live `renumber file`: open the file (abort if absent), process its lines,
then commit: with changes the temporary file is renamed over the original
(`fsSet f out`); without changes the temporary file is deleted and the
original left untouched.  If the traversal of the lines aborts, the partial
temporary file `f ++ ".renumber"` is left on disk, as in the Python where
the exception unwinds out of the `with` block before any rename.  Fuel 0
stands for a run that never returns (reference cycle). -/
def goFile : Nat → String → FS → Nat → VRes
  | 0, f, fs, _ => ⟨[], [], [f], fs, none⟩
  | fuel+1, f, fs, np =>
    match fsFind fs f with
    | none => ⟨[], [], [f], fs, none⟩
    | some lines =>
      let s := goLines (goFile fuel) fs np lines
      match s.final with
      | none =>
        ⟨s.notices, s.marks, f :: s.visited, fsSet s.fs (f ++ ".renumber") s.out, none⟩
      | some (np2, _ch) =>
        ⟨s.notices, s.marks, f :: s.visited,
          if _ch then fsSet s.fs f s.out else s.fs, some np2⟩

/-- Dry-run traversal of the remaining lines of one file: identical
classification and counter behavior, no output buffering, no writes. -/
def dryLines (v : String → FS → Nat → DRes) : FS → Nat → List String → DRes
  | _, np, [] => ⟨[], [], [], some np⟩
  | fs, np, line :: rest =>
    match classify line with
    | .ins p =>
      let r := v p fs np
      match r.final with
      | none => ⟨r.notices, r.marks, r.visited, none⟩
      | some np2 =>
        let s := dryLines v fs np2 rest
        ⟨r.notices ++ s.notices, r.marks ++ s.marks, r.visited ++ s.visited, s.final⟩
    | .page d =>
      let s := dryLines v fs (np + 1) rest
      if d = np then ⟨s.notices, (d, np) :: s.marks, s.visited, s.final⟩
      else ⟨(d, np) :: s.notices, (d, np) :: s.marks, s.visited, s.final⟩
    | .plain => dryLines v fs np rest

/-- Dry-run `dryRun file`: open and traverse, nothing persisted. -/
def dryFile : Nat → String → FS → Nat → DRes
  | 0, f, _, _ => ⟨[], [], [f], none⟩
  | fuel+1, f, fs, np =>
    match fsFind fs f with
    | none => ⟨[], [], [f], none⟩
    | some lines =>
      let s := dryLines (dryFile fuel) fs np lines
      ⟨s.notices, s.marks, f :: s.visited, s.final⟩

/-- Value of a little-endian decimal digit list. -/
def valLE : List Nat → Nat
  | [] => 0
  | d :: t => d + 10 * valLE t

/-- One word of `dump.py`'s `output`: `b = h << 7 | l >> 1`. -/
def word (h l : Nat) : Nat := (h <<< 7) ||| (l >>> 1)

/-- The word stream of `dump.py`: bytes are consumed in pairs; a final
unpaired byte is the high byte of a word whose low byte is 0.  (The source
reads 1024-byte chunks, but on a regular file every chunk before the last
is full and hence of even length, so pairing the whole byte stream is the
same pairing.) -/
def dumpWords : List Nat → List Nat
  | [] => []
  | [h] => [word h 0]
  | h :: l :: rest => word h l :: dumpWords rest

/-! ## Decimal digit facts: Python's `str`/`int` round trip -/

theorem digitsRevGo_zero (fuel : Nat) : digitsRevGo fuel 0 = [] := by
  cases fuel <;> simp [digitsRevGo]

theorem digitsRevGo_congr : ∀ fuel fuel' n, n ≤ fuel → n ≤ fuel' →
    digitsRevGo fuel n = digitsRevGo fuel' n := by
  intro fuel
  induction fuel with
  | zero =>
    intro fuel' n h _
    have : n = 0 := Nat.le_zero.mp h
    subst this
    rw [digitsRevGo_zero, digitsRevGo_zero]
  | succ m ih =>
    intro fuel' n h h'
    by_cases hn : n = 0
    · subst hn; rw [digitsRevGo_zero, digitsRevGo_zero]
    · cases fuel' with
      | zero => omega
      | succ m' =>
        simp only [digitsRevGo, hn, if_false]
        have hd : n / 10 < n := Nat.div_lt_self (Nat.pos_of_ne_zero hn) (by omega)
        exact congrArg _ (ih m' (n / 10) (by omega) (by omega))

theorem digitsRev_zero : digitsRev 0 = [] := by simp [digitsRev, digitsRevGo]

theorem digitsRev_eq (n : Nat) (h : n ≠ 0) :
    digitsRev n = n % 10 :: digitsRev (n / 10) := by
  obtain ⟨m, rfl⟩ : ∃ m, n = m + 1 := ⟨n - 1, by omega⟩
  show digitsRevGo (m + 1) (m + 1) = _
  simp only [digitsRevGo, h, if_false]
  have hd : (m + 1) / 10 < m + 1 := Nat.div_lt_self (by omega) (by omega)
  exact congrArg _ (digitsRevGo_congr m ((m + 1) / 10) ((m + 1) / 10) (by omega) le_rfl)

theorem valLE_digitsRev : ∀ n, valLE (digitsRev n) = n := by
  intro n
  induction n using Nat.strong_induction_on with
  | _ n ih =>
    by_cases hn : n = 0
    · subst hn; rw [digitsRev_zero]; rfl
    · rw [digitsRev_eq n hn]
      have hd : n / 10 < n := Nat.div_lt_self (Nat.pos_of_ne_zero hn) (by omega)
      simp only [valLE, ih (n / 10) hd]
      omega

theorem digitsRev_lt : ∀ n d, d ∈ digitsRev n → d < 10 := by
  intro n
  induction n using Nat.strong_induction_on with
  | _ n ih =>
    intro d hd
    by_cases hn : n = 0
    · subst hn; rw [digitsRev_zero] at hd; cases hd
    · rw [digitsRev_eq n hn] at hd
      rcases List.mem_cons.mp hd with h | h
      · omega
      · exact ih (n / 10) (Nat.div_lt_self (Nat.pos_of_ne_zero hn) (by omega)) d h

theorem digitChar_isDigit (d : Nat) (h : d < 10) : isDigitCh (digitChar d) = true := by
  interval_cases d <;> decide

theorem digitVal_digitChar (d : Nat) (h : d < 10) : digitVal (digitChar d) = d := by
  interval_cases d <;> decide

theorem isWs_of_isDigit (c : Char) (h : isDigitCh c = true) : isWs c = false := by
  by_contra hw
  have hw' : isWs c = true := by
    cases hx : isWs c
    · exact absurd hx hw
    · rfl
  rcases (by simpa [isWs] using hw' : c = ' ' ∨ c = '\t') with h1 | h1
  · subst h1; exact absurd h (by decide)
  · subst h1; exact absurd h (by decide)

theorem natChars_ne_nil (n : Nat) : natChars n ≠ [] := by
  unfold natChars
  by_cases hn : n = 0
  · simp [hn]
  · simp only [hn, if_false]
    intro hcon
    have h1 : (digitsRev n).map digitChar = [] := by
      simpa using congrArg List.reverse hcon
    have h2 : digitsRev n = [] := by simpa using h1
    have := valLE_digitsRev n
    rw [h2] at this
    exact hn (by simpa [valLE] using this.symm)

theorem natChars_isDigit (n : Nat) : ∀ c ∈ natChars n, isDigitCh c = true := by
  intro c hc
  unfold natChars at hc
  by_cases hn : n = 0
  · simp [hn] at hc; subst hc; decide
  · simp only [hn, if_false, List.mem_reverse, List.mem_map] at hc
    obtain ⟨d, hd, rfl⟩ := hc
    exact digitChar_isDigit d (digitsRev_lt n d hd)

theorem digitsToNat_append_one (xs : List Char) (c : Char) :
    digitsToNat (xs ++ [c]) = digitsToNat xs * 10 + digitVal c := by
  simp [digitsToNat, List.foldl_append]

theorem digitsToNat_rev_map : ∀ ds : List Nat, (∀ d ∈ ds, d < 10) →
    digitsToNat ((ds.map digitChar).reverse) = valLE ds := by
  intro ds
  induction ds with
  | nil => intro _; rfl
  | cons d t ih =>
    intro h
    simp only [List.map_cons, List.reverse_cons]
    rw [digitsToNat_append_one, ih (fun x hx => h x (List.mem_cons_of_mem d hx)),
      digitVal_digitChar d (h d (List.mem_cons_self d t))]
    simp [valLE]; omega

theorem digitsToNat_natChars (n : Nat) : digitsToNat (natChars n) = n := by
  unfold natChars
  by_cases hn : n = 0
  · simp [hn]; decide
  · simp only [hn, if_false]
    rw [digitsToNat_rev_map (digitsRev n) (digitsRev_lt n), valLE_digitsRev]

/-! ## The replacement line re-parses as a page marker for the same number -/

theorem lineRepl_data (np : Nat) :
    (lineRepl np).data =
      '#' :: '#' :: ' ' :: 'P' :: 'a' :: 'g' :: 'e' :: ' ' :: (natChars np ++ ['\n']) := by
  show (("## Page " ++ natStr np) ++ "\n").data = _
  rw [String.data_append, String.data_append]
  show String.data "## Page " ++ natChars np ++ ['\n'] = _
  rw [show String.data "## Page " = ['#', '#', ' ', 'P', 'a', 'g', 'e', ' '] from rfl]
  simp

theorem insertTok_lineRepl (np : Nat) : insertTok (lineRepl np) = none := by
  unfold insertTok
  rw [lineRepl_data]
  rfl

theorem pageNum_lineRepl (np : Nat) : pageNum (lineRepl np) = some np := by
  unfold pageNum
  rw [lineRepl_data]
  obtain ⟨c0, cs, hnc⟩ : ∃ c0 cs, natChars np = c0 :: cs := by
    cases h : natChars np with
    | nil => exact absurd h (natChars_ne_nil np)
    | cons c0 cs => exact ⟨c0, cs, rfl⟩
  have hc0 : isDigitCh c0 = true := natChars_isDigit np c0 (by rw [hnc]; exact List.mem_cons_self _ _)
  show (match List.dropWhile isWs (' ' :: 'P' :: 'a' :: 'g' :: 'e' :: ' ' :: (natChars np ++ ['\n'])) with
    | 'P' :: 'a' :: 'g' :: 'e' :: r2 => _ | _ => none) = some np
  rw [List.dropWhile_cons_of_pos (by decide : isWs ' ' = true),
    List.dropWhile_cons_of_neg (by decide : ¬ isWs 'P' = true)]
  show (if isWs ' ' then
      match (List.dropWhile isWs (natChars np ++ ['\n'])).takeWhile isDigitCh with
      | [] => none | ds => some (digitsToNat ds)
    else none) = some np
  rw [if_pos (by decide : isWs ' ' = true)]
  rw [hnc, List.cons_append,
    List.dropWhile_cons_of_neg (by rw [isWs_of_isDigit c0 hc0]; exact Bool.false_ne_true),
    ← List.cons_append, ← hnc,
    List.takeWhile_append_of_pos (natChars_isDigit np),
    show List.takeWhile isDigitCh ['\n'] = [] from rfl, List.append_nil, hnc]
  show some (digitsToNat (c0 :: cs)) = some np
  rw [← hnc, digitsToNat_natChars]

theorem classify_lineRepl (np : Nat) : classify (lineRepl np) = .page np := by
  unfold classify
  rw [insertTok_lineRepl, pageNum_lineRepl]

/-! ## Association-list file system lemmas -/

theorem fsFind_set_self : ∀ (fs : FS) (f : String) (ls : List String),
    fsFind (fsSet fs f ls) f = some ls := by
  intro fs f ls
  induction fs with
  | nil => simp [fsSet, fsFind]
  | cons e t ih =>
    obtain ⟨g, m⟩ := e
    by_cases h : g = f
    · subst h
      simp [fsSet, fsFind]
    · simp [fsSet, fsFind, h, ih]

theorem fsFind_set_ne : ∀ (fs : FS) (f g : String) (ls : List String), g ≠ f →
    fsFind (fsSet fs f ls) g = fsFind fs g := by
  intro fs f g ls hne
  induction fs with
  | nil => simp [fsSet, fsFind, Ne.symm hne]
  | cons e t ih =>
    obtain ⟨g1, m⟩ := e
    by_cases h : g1 = f
    · subst h
      simp [fsSet, fsFind, Ne.symm hne]
    · simp [fsSet, fsFind, h, ih]

/-! ## The page counter invariant (both modes) -/

theorem range'_glue (s a b : Nat) :
    List.range' s a ++ List.range' (s + a) b = List.range' s (a + b) := by
  rw [Nat.add_comm a b]
  exact List.range'_append_1 s a b

/-- Counter invariant, lines level, dry mode: the expected numbers consumed
by the marker trace are consecutive starting at the incoming counter, and on
success the final counter is the incoming counter plus the number of markers
observed. -/
theorem dryLines_marks (v : String → FS → Nat → DRes)
    (hv : ∀ p fs np, (v p fs np).marks.map Prod.snd =
        List.range' np (v p fs np).marks.length ∧
      ∀ np2, (v p fs np).final = some np2 → np2 = np + (v p fs np).marks.length) :
    ∀ lines fs np, (dryLines v fs np lines).marks.map Prod.snd =
        List.range' np (dryLines v fs np lines).marks.length ∧
      ∀ np2, (dryLines v fs np lines).final = some np2 →
        np2 = np + (dryLines v fs np lines).marks.length := by
  intro lines
  induction lines with
  | nil =>
    intro fs np
    constructor
    · simp [dryLines]
    · intro np2 h
      simp [dryLines] at h
      simp [dryLines, h]
  | cons line rest ih =>
    intro fs np
    cases hc : classify line with
    | ins p =>
      simp only [dryLines, hc]
      cases hrf : (v p fs np).final with
      | none =>
        simp only [hrf]
        exact ⟨(hv p fs np).1, by intro np2 h; cases h⟩
      | some np1 =>
        simp only [hrf]
        have h1 := (hv p fs np).1
        have h2 := (hv p fs np).2 np1 hrf
        have h3 := ih fs np1
        constructor
        · rw [List.map_append, List.length_append, h1, h3.1, h2, ← range'_glue]
        · intro np2 h
          have := h3.2 np2 h
          simp only [List.length_append]
          omega
    | page d =>
      simp only [dryLines, hc]
      have h3 := ih fs (np + 1)
      by_cases hd : d = np <;> simp only [hd, if_true, if_false, if_pos, if_neg, not_false_iff]
      all_goals {
        constructor
        · simp only [List.map_cons, List.length_cons]
          rw [h3.1, List.range'_succ]
        · intro np2 h
          have := h3.2 np2 h
          simp only [List.length_cons]
          omega
      }
    | plain =>
      simp only [dryLines, hc]
      exact ih fs np

/-- Counter invariant, file level, dry mode. -/
theorem dryFile_marks : ∀ fuel p fs np,
    (dryFile fuel p fs np).marks.map Prod.snd =
      List.range' np (dryFile fuel p fs np).marks.length ∧
    ∀ np2, (dryFile fuel p fs np).final = some np2 →
      np2 = np + (dryFile fuel p fs np).marks.length := by
  intro fuel
  induction fuel with
  | zero =>
    intro p fs np
    exact ⟨by simp [dryFile], by intro np2 h; cases h⟩
  | succ m ih =>
    intro p fs np
    cases hf : fsFind fs p with
    | none =>
      simp only [dryFile, hf]
      exact ⟨by simp, by intro np2 h; cases h⟩
    | some lines =>
      simp only [dryFile, hf]
      exact dryLines_marks (dryFile m) ih lines fs np

/-- Counter invariant, lines level, live mode. -/
theorem goLines_marks (v : String → FS → Nat → VRes)
    (hv : ∀ p fs np, (v p fs np).marks.map Prod.snd =
        List.range' np (v p fs np).marks.length ∧
      ∀ np2, (v p fs np).final = some np2 → np2 = np + (v p fs np).marks.length) :
    ∀ lines fs np, (goLines v fs np lines).marks.map Prod.snd =
        List.range' np (goLines v fs np lines).marks.length ∧
      ∀ np2 ch, (goLines v fs np lines).final = some (np2, ch) →
        np2 = np + (goLines v fs np lines).marks.length := by
  intro lines
  induction lines with
  | nil =>
    intro fs np
    constructor
    · simp [goLines]
    · intro np2 ch h
      simp [goLines] at h
      simp [goLines, h.1]
  | cons line rest ih =>
    intro fs np
    cases hc : classify line with
    | ins p =>
      simp only [goLines, hc]
      cases hrf : (v p fs np).final with
      | none =>
        simp only [hrf]
        exact ⟨(hv p fs np).1, by intro np2 ch h; cases h⟩
      | some np1 =>
        simp only [hrf]
        have h1 := (hv p fs np).1
        have h2 := (hv p fs np).2 np1 hrf
        have h3 := ih (v p fs np).fs np1
        constructor
        · rw [List.map_append, List.length_append, h1, h3.1, h2, ← range'_glue]
        · intro np2 ch h
          have := h3.2 np2 ch h
          simp only [List.length_append]
          omega
    | page d =>
      simp only [goLines, hc]
      have h3 := ih fs (np + 1)
      by_cases hd : d = np <;> simp only [hd, if_true, if_false, if_pos, if_neg, not_false_iff]
      · constructor
        · simp only [List.map_cons, List.length_cons]
          rw [h3.1, List.range'_succ]
        · intro np2 ch h
          have := h3.2 np2 ch h
          simp only [List.length_cons]
          omega
      · constructor
        · simp only [List.map_cons, List.length_cons]
          rw [h3.1, List.range'_succ]
        · intro np2 ch h
          cases hsf : (goLines v fs (np + 1) rest).final with
          | none => rw [hsf] at h; cases h
          | some x =>
            obtain ⟨np3, ch3⟩ := x
            rw [hsf] at h
            simp only [Option.some.injEq, Prod.mk.injEq] at h
            have := h3.2 np3 ch3 hsf
            simp only [List.length_cons]
            omega
    | plain =>
      simp only [goLines, hc]
      exact ih fs np

/-- Counter invariant, file level, live mode. -/
theorem goFile_marks : ∀ fuel p fs np,
    (goFile fuel p fs np).marks.map Prod.snd =
      List.range' np (goFile fuel p fs np).marks.length ∧
    ∀ np2, (goFile fuel p fs np).final = some np2 →
      np2 = np + (goFile fuel p fs np).marks.length := by
  intro fuel
  induction fuel with
  | zero =>
    intro p fs np
    exact ⟨by simp [goFile], by intro np2 h; cases h⟩
  | succ m ih =>
    intro p fs np
    cases hf : fsFind fs p with
    | none =>
      simp only [goFile, hf]
      exact ⟨by simp, by intro np2 h; cases h⟩
    | some lines =>
      simp only [goFile, hf]
      have h := goLines_marks (goFile m) ih lines fs np
      cases hsf : (goLines (goFile m) fs np lines).final with
      | none =>
        simp only [hsf]
        exact ⟨h.1, by intro np2 hcon; cases hcon⟩
      | some x =>
        obtain ⟨np2, ch⟩ := x
        simp only [hsf]
        refine ⟨h.1, ?_⟩
        intro np3 h3
        simp only [Option.some.injEq] at h3
        subst h3
        exact h.2 np2 ch hsf

/-! ## Branch equations for the traversal functions -/

theorem goLines_nil (v : String → FS → Nat → VRes) (fs : FS) (np : Nat) :
    goLines v fs np [] = ⟨[], [], [], fs, [], some (np, false)⟩ := rfl

theorem goLines_ins_none (v : String → FS → Nat → VRes) {line : String} {p : String}
    (fs : FS) (np : Nat) (rest : List String)
    (hc : classify line = .ins p) (hrf : (v p fs np).final = none) :
    goLines v fs np (line :: rest) =
      ⟨(v p fs np).notices, (v p fs np).marks, (v p fs np).visited, (v p fs np).fs,
        [], none⟩ := by
  simp only [goLines, hc, hrf]

theorem goLines_ins_some (v : String → FS → Nat → VRes) {line : String} {p : String}
    (fs : FS) (np : Nat) (rest : List String) (np1 : Nat)
    (hc : classify line = .ins p) (hrf : (v p fs np).final = some np1) :
    goLines v fs np (line :: rest) =
      ⟨(v p fs np).notices ++ (goLines v (v p fs np).fs np1 rest).notices,
        (v p fs np).marks ++ (goLines v (v p fs np).fs np1 rest).marks,
        (v p fs np).visited ++ (goLines v (v p fs np).fs np1 rest).visited,
        (goLines v (v p fs np).fs np1 rest).fs,
        line :: (goLines v (v p fs np).fs np1 rest).out,
        (goLines v (v p fs np).fs np1 rest).final⟩ := by
  simp only [goLines, hc, hrf]

theorem goLines_page_pos (v : String → FS → Nat → VRes) {line : String} {d : Nat}
    (fs : FS) (np : Nat) (rest : List String)
    (hc : classify line = .page d) (hd : d = np) :
    goLines v fs np (line :: rest) =
      ⟨(goLines v fs (np + 1) rest).notices, (d, np) :: (goLines v fs (np + 1) rest).marks,
        (goLines v fs (np + 1) rest).visited, (goLines v fs (np + 1) rest).fs,
        line :: (goLines v fs (np + 1) rest).out, (goLines v fs (np + 1) rest).final⟩ := by
  simp only [goLines, hc]
  rw [if_pos hd]

theorem goLines_page_neg_none (v : String → FS → Nat → VRes) {line : String} {d : Nat}
    (fs : FS) (np : Nat) (rest : List String)
    (hc : classify line = .page d) (hd : ¬ d = np)
    (hsf : (goLines v fs (np + 1) rest).final = none) :
    goLines v fs np (line :: rest) =
      ⟨(d, np) :: (goLines v fs (np + 1) rest).notices,
        (d, np) :: (goLines v fs (np + 1) rest).marks,
        (goLines v fs (np + 1) rest).visited, (goLines v fs (np + 1) rest).fs,
        lineRepl np :: (goLines v fs (np + 1) rest).out, none⟩ := by
  simp only [goLines, hc]
  rw [if_neg hd]
  simp only [hsf]

theorem goLines_page_neg_some (v : String → FS → Nat → VRes) {line : String} {d : Nat}
    (fs : FS) (np : Nat) (rest : List String) (np2 : Nat) (ch : Bool)
    (hc : classify line = .page d) (hd : ¬ d = np)
    (hsf : (goLines v fs (np + 1) rest).final = some (np2, ch)) :
    goLines v fs np (line :: rest) =
      ⟨(d, np) :: (goLines v fs (np + 1) rest).notices,
        (d, np) :: (goLines v fs (np + 1) rest).marks,
        (goLines v fs (np + 1) rest).visited, (goLines v fs (np + 1) rest).fs,
        lineRepl np :: (goLines v fs (np + 1) rest).out, some (np2, true)⟩ := by
  simp only [goLines, hc]
  rw [if_neg hd]
  simp only [hsf]

theorem goLines_plain (v : String → FS → Nat → VRes) {line : String}
    (fs : FS) (np : Nat) (rest : List String) (hc : classify line = .plain) :
    goLines v fs np (line :: rest) =
      ⟨(goLines v fs np rest).notices, (goLines v fs np rest).marks,
        (goLines v fs np rest).visited, (goLines v fs np rest).fs,
        line :: (goLines v fs np rest).out, (goLines v fs np rest).final⟩ := by
  simp only [goLines, hc]

theorem goFile_zero (f : String) (fs : FS) (np : Nat) :
    goFile 0 f fs np = ⟨[], [], [f], fs, none⟩ := rfl

theorem goFile_not_found {f : String} {fs : FS} (fuel np : Nat)
    (hf : fsFind fs f = none) :
    goFile (fuel + 1) f fs np = ⟨[], [], [f], fs, none⟩ := by
  simp only [goFile, hf]

theorem goFile_found_abort {f : String} {fs : FS} {lines : List String} (fuel np : Nat)
    (hf : fsFind fs f = some lines)
    (hsf : (goLines (goFile fuel) fs np lines).final = none) :
    goFile (fuel + 1) f fs np =
      ⟨(goLines (goFile fuel) fs np lines).notices,
        (goLines (goFile fuel) fs np lines).marks,
        f :: (goLines (goFile fuel) fs np lines).visited,
        fsSet (goLines (goFile fuel) fs np lines).fs (f ++ ".renumber")
          (goLines (goFile fuel) fs np lines).out, none⟩ := by
  simp only [goFile, hf, hsf]

theorem goFile_found_done {f : String} {fs : FS} {lines : List String} (fuel np np2 : Nat)
    (ch : Bool) (hf : fsFind fs f = some lines)
    (hsf : (goLines (goFile fuel) fs np lines).final = some (np2, ch)) :
    goFile (fuel + 1) f fs np =
      ⟨(goLines (goFile fuel) fs np lines).notices,
        (goLines (goFile fuel) fs np lines).marks,
        f :: (goLines (goFile fuel) fs np lines).visited,
        if ch then fsSet (goLines (goFile fuel) fs np lines).fs f
          (goLines (goFile fuel) fs np lines).out
        else (goLines (goFile fuel) fs np lines).fs, some np2⟩ := by
  simp only [goFile, hf, hsf]

theorem goFile_found_done_false {f : String} {fs : FS} {lines : List String}
    (fuel np np2 : Nat) (hf : fsFind fs f = some lines)
    (hsf : (goLines (goFile fuel) fs np lines).final = some (np2, false)) :
    goFile (fuel + 1) f fs np =
      ⟨(goLines (goFile fuel) fs np lines).notices,
        (goLines (goFile fuel) fs np lines).marks,
        f :: (goLines (goFile fuel) fs np lines).visited,
        (goLines (goFile fuel) fs np lines).fs, some np2⟩ := by
  rw [goFile_found_done fuel np np2 false hf hsf]
  simp

theorem goFile_found_done_true {f : String} {fs : FS} {lines : List String}
    (fuel np np2 : Nat) (hf : fsFind fs f = some lines)
    (hsf : (goLines (goFile fuel) fs np lines).final = some (np2, true)) :
    goFile (fuel + 1) f fs np =
      ⟨(goLines (goFile fuel) fs np lines).notices,
        (goLines (goFile fuel) fs np lines).marks,
        f :: (goLines (goFile fuel) fs np lines).visited,
        fsSet (goLines (goFile fuel) fs np lines).fs f
          (goLines (goFile fuel) fs np lines).out, some np2⟩ := by
  rw [goFile_found_done fuel np np2 true hf hsf]
  simp

theorem dryLines_nil (v : String → FS → Nat → DRes) (fs : FS) (np : Nat) :
    dryLines v fs np [] = ⟨[], [], [], some np⟩ := rfl

theorem dryLines_ins_none (v : String → FS → Nat → DRes) {line : String} {p : String}
    (fs : FS) (np : Nat) (rest : List String)
    (hc : classify line = .ins p) (hrf : (v p fs np).final = none) :
    dryLines v fs np (line :: rest) =
      ⟨(v p fs np).notices, (v p fs np).marks, (v p fs np).visited, none⟩ := by
  simp only [dryLines, hc, hrf]

theorem dryLines_ins_some (v : String → FS → Nat → DRes) {line : String} {p : String}
    (fs : FS) (np : Nat) (rest : List String) (np1 : Nat)
    (hc : classify line = .ins p) (hrf : (v p fs np).final = some np1) :
    dryLines v fs np (line :: rest) =
      ⟨(v p fs np).notices ++ (dryLines v fs np1 rest).notices,
        (v p fs np).marks ++ (dryLines v fs np1 rest).marks,
        (v p fs np).visited ++ (dryLines v fs np1 rest).visited,
        (dryLines v fs np1 rest).final⟩ := by
  simp only [dryLines, hc, hrf]

theorem dryLines_page_pos (v : String → FS → Nat → DRes) {line : String} {d : Nat}
    (fs : FS) (np : Nat) (rest : List String)
    (hc : classify line = .page d) (hd : d = np) :
    dryLines v fs np (line :: rest) =
      ⟨(dryLines v fs (np + 1) rest).notices, (d, np) :: (dryLines v fs (np + 1) rest).marks,
        (dryLines v fs (np + 1) rest).visited, (dryLines v fs (np + 1) rest).final⟩ := by
  simp only [dryLines, hc]
  rw [if_pos hd]

theorem dryLines_page_neg (v : String → FS → Nat → DRes) {line : String} {d : Nat}
    (fs : FS) (np : Nat) (rest : List String)
    (hc : classify line = .page d) (hd : ¬ d = np) :
    dryLines v fs np (line :: rest) =
      ⟨(d, np) :: (dryLines v fs (np + 1) rest).notices,
        (d, np) :: (dryLines v fs (np + 1) rest).marks,
        (dryLines v fs (np + 1) rest).visited, (dryLines v fs (np + 1) rest).final⟩ := by
  simp only [dryLines, hc]
  rw [if_neg hd]

theorem dryLines_plain (v : String → FS → Nat → DRes) {line : String}
    (fs : FS) (np : Nat) (rest : List String) (hc : classify line = .plain) :
    dryLines v fs np (line :: rest) = dryLines v fs np rest := by
  simp only [dryLines, hc]

theorem dryFile_zero (f : String) (fs : FS) (np : Nat) :
    dryFile 0 f fs np = ⟨[], [], [f], none⟩ := rfl

theorem dryFile_not_found {f : String} {fs : FS} (fuel np : Nat)
    (hf : fsFind fs f = none) :
    dryFile (fuel + 1) f fs np = ⟨[], [], [f], none⟩ := by
  simp only [dryFile, hf]

theorem dryFile_found {f : String} {fs : FS} {lines : List String} (fuel np : Nat)
    (hf : fsFind fs f = some lines) :
    dryFile (fuel + 1) f fs np =
      ⟨(dryLines (dryFile fuel) fs np lines).notices,
        (dryLines (dryFile fuel) fs np lines).marks,
        f :: (dryLines (dryFile fuel) fs np lines).visited,
        (dryLines (dryFile fuel) fs np lines).final⟩ := by
  simp only [dryFile, hf]

/-! ## Buffered output equals the input when no change was recorded -/

/-- If a file's traversal completes with `changes = False`, the buffered
output written to the temporary file is exactly the original line list
(so renaming it over the original would have been a no-op, and the code
deletes it instead). -/
theorem goLines_out_unchanged (v : String → FS → Nat → VRes) :
    ∀ lines fs np np2, (goLines v fs np lines).final = some (np2, false) →
      (goLines v fs np lines).out = lines := by
  intro lines
  induction lines with
  | nil =>
    intro fs np np2 _
    rw [goLines_nil]
  | cons line rest ih =>
    intro fs np np2 hfin
    cases hc : classify line with
    | ins p =>
      cases hrf : (v p fs np).final with
      | none =>
        rw [goLines_ins_none v fs np rest hc hrf] at hfin
        cases hfin
      | some np1 =>
        rw [goLines_ins_some v fs np rest np1 hc hrf] at hfin ⊢
        show line :: (goLines v (v p fs np).fs np1 rest).out = line :: rest
        rw [ih _ np1 np2 hfin]
    | page d =>
      by_cases hd : d = np
      · rw [goLines_page_pos v fs np rest hc hd] at hfin ⊢
        show line :: (goLines v fs (np + 1) rest).out = line :: rest
        rw [ih fs (np + 1) np2 hfin]
      · cases hsf : (goLines v fs (np + 1) rest).final with
        | none =>
          rw [goLines_page_neg_none v fs np rest hc hd hsf] at hfin
          cases hfin
        | some x =>
          obtain ⟨np3, ch3⟩ := x
          rw [goLines_page_neg_some v fs np rest np3 ch3 hc hd hsf] at hfin
          have hfin2 : some ((np3 : Nat), true) = some (np2, false) := hfin
          simp at hfin2
    | plain =>
      rw [goLines_plain v fs np rest hc] at hfin ⊢
      show line :: (goLines v fs np rest).out = line :: rest
      rw [ih fs np np2 hfin]

/-! ## Frame property: a successful live run only touches visited files -/

/-- Frame property of a visitor: when a call completes, only files it
visited can have changed. -/
def FrameOK (vL : String → FS → Nat → VRes) : Prop :=
  ∀ p fs np g, (vL p fs np).final.isSome = true →
    fsFind (vL p fs np).fs g ≠ fsFind fs g → g ∈ (vL p fs np).visited

/-- Lines-level frame property. -/
theorem goLines_frame (vL : String → FS → Nat → VRes) (hF : FrameOK vL) :
    ∀ lines fs np g, (goLines vL fs np lines).final.isSome = true →
      fsFind (goLines vL fs np lines).fs g ≠ fsFind fs g →
      g ∈ (goLines vL fs np lines).visited := by
  intro lines
  induction lines with
  | nil =>
    intro fs np g _ hne
    rw [goLines_nil] at hne
    exact absurd rfl hne
  | cons line rest ih =>
    intro fs np g hS hne
    cases hc : classify line with
    | ins p =>
      cases hrf : (vL p fs np).final with
      | none =>
        rw [goLines_ins_none vL fs np rest hc hrf] at hS
        cases hS
      | some np1 =>
        rw [goLines_ins_some vL fs np rest np1 hc hrf] at hS hne ⊢
        show g ∈ (vL p fs np).visited ++ (goLines vL (vL p fs np).fs np1 rest).visited
        rw [List.mem_append]
        by_cases hg : fsFind (vL p fs np).fs g = fsFind fs g
        · right
          exact ih (vL p fs np).fs np1 g hS (fun hcon => hne (hcon.trans hg))
        · left
          exact hF p fs np g (by rw [hrf]; rfl) hg
    | page d =>
      by_cases hd : d = np
      · rw [goLines_page_pos vL fs np rest hc hd] at hS hne ⊢
        exact ih fs (np + 1) g hS hne
      · cases hsf : (goLines vL fs (np + 1) rest).final with
        | none =>
          rw [goLines_page_neg_none vL fs np rest hc hd hsf] at hS
          cases hS
        | some x =>
          obtain ⟨np2, ch⟩ := x
          rw [goLines_page_neg_some vL fs np rest np2 ch hc hd hsf] at hS hne ⊢
          exact ih fs (np + 1) g (by rw [hsf]; rfl) hne
    | plain =>
      rw [goLines_plain vL fs np rest hc] at hS hne ⊢
      exact ih fs np g hS hne

/-- File-level frame property of the live engine. -/
theorem goFile_frame : ∀ fuel, FrameOK (goFile fuel) := by
  intro fuel
  induction fuel with
  | zero =>
    intro p fs np g hS _
    rw [goFile_zero] at hS
    cases hS
  | succ m ih =>
    intro p fs np g hS hne
    cases hf : fsFind fs p with
    | none =>
      rw [goFile_not_found m np hf] at hS
      cases hS
    | some lines =>
      cases hsf : (goLines (goFile m) fs np lines).final with
      | none =>
        rw [goFile_found_abort m np hf hsf] at hS
        cases hS
      | some x =>
        obtain ⟨np2, ch⟩ := x
        rw [goFile_found_done m np np2 ch hf hsf] at hne ⊢
        show g ∈ p :: (goLines (goFile m) fs np lines).visited
        rw [List.mem_cons]
        by_cases hgp : g = p
        · left; exact hgp
        · right
          cases ch with
          | false =>
            rw [if_neg (by simp)] at hne
            exact goLines_frame (goFile m) ih lines fs np g (by rw [hsf]; rfl) hne
          | true =>
            rw [if_pos rfl] at hne
            rw [fsFind_set_ne _ p g _ hgp] at hne
            exact goLines_frame (goFile m) ih lines fs np g (by rw [hsf]; rfl) hne

/-! ## Simulation: dry run and live run agree when no file is revisited -/

/-- `fs1` and `fs2` hold the same content for every file in `l`. -/
def agrees (fs1 fs2 : FS) (l : List String) : Prop :=
  ∀ f ∈ l, fsFind fs1 f = fsFind fs2 f

/-- Simulation property between a live visitor and a dry visitor: on file
systems that agree on the files the dry run opens, and when the dry run
opens no file twice, both runs print the same notices, open the same files
and succeed or abort alike. -/
def SimOK (vL : String → FS → Nat → VRes) (vD : String → FS → Nat → DRes) : Prop :=
  ∀ p fs1 fs2 np, (vD p fs2 np).visited.Nodup → agrees fs1 fs2 (vD p fs2 np).visited →
    (vL p fs1 np).notices = (vD p fs2 np).notices ∧
    (vL p fs1 np).visited = (vD p fs2 np).visited ∧
    (vL p fs1 np).final = (vD p fs2 np).final

/-- Lines-level simulation. -/
theorem simLines (vL : String → FS → Nat → VRes) (vD : String → FS → Nat → DRes)
    (hS : SimOK vL vD) (hF : FrameOK vL) :
    ∀ lines fs1 fs2 np, (dryLines vD fs2 np lines).visited.Nodup →
      agrees fs1 fs2 (dryLines vD fs2 np lines).visited →
      (goLines vL fs1 np lines).notices = (dryLines vD fs2 np lines).notices ∧
      (goLines vL fs1 np lines).visited = (dryLines vD fs2 np lines).visited ∧
      (goLines vL fs1 np lines).final.map Prod.fst = (dryLines vD fs2 np lines).final := by
  intro lines
  induction lines with
  | nil =>
    intro fs1 fs2 np _ _
    rw [goLines_nil, dryLines_nil]
    exact ⟨rfl, rfl, rfl⟩
  | cons line rest ih =>
    intro fs1 fs2 np hnd hag
    cases hc : classify line with
    | ins p =>
      cases hrfD : (vD p fs2 np).final with
      | none =>
        rw [dryLines_ins_none vD fs2 np rest hc hrfD] at hnd hag ⊢
        have hsim := hS p fs1 fs2 np hnd hag
        have hrfL : (vL p fs1 np).final = none := hsim.2.2.trans hrfD
        rw [goLines_ins_none vL fs1 np rest hc hrfL]
        exact ⟨hsim.1, hsim.2.1, rfl⟩
      | some np1 =>
        rw [dryLines_ins_some vD fs2 np rest np1 hc hrfD] at hnd hag ⊢
        have hnd' : ((vD p fs2 np).visited ++ (dryLines vD fs2 np1 rest).visited).Nodup := hnd
        have hag' : agrees fs1 fs2
            ((vD p fs2 np).visited ++ (dryLines vD fs2 np1 rest).visited) := hag
        rw [List.nodup_append] at hnd'
        have hagC : agrees fs1 fs2 (vD p fs2 np).visited :=
          fun f hf => hag' f (List.mem_append_left _ hf)
        have hsim := hS p fs1 fs2 np hnd'.1 hagC
        have hrfL : (vL p fs1 np).final = some np1 := hsim.2.2.trans hrfD
        rw [goLines_ins_some vL fs1 np rest np1 hc hrfL]
        have hagR : agrees (vL p fs1 np).fs fs2 (dryLines vD fs2 np1 rest).visited := by
          intro g hg
          have hgn : g ∉ (vD p fs2 np).visited := fun hin => hnd'.2.2 hin hg
          have hkeep : fsFind (vL p fs1 np).fs g = fsFind fs1 g := by
            by_contra hne
            exact hgn (hsim.2.1 ▸ hF p fs1 np g (by rw [hrfL]; rfl) hne)
          rw [hkeep]
          exact hag' g (List.mem_append_right _ hg)
        have hihR := ih (vL p fs1 np).fs fs2 np1 hnd'.2.1 hagR
        refine ⟨?_, ?_, hihR.2.2⟩
        · show (vL p fs1 np).notices ++ _ = (vD p fs2 np).notices ++ _
          rw [hsim.1, hihR.1]
        · show (vL p fs1 np).visited ++ _ = (vD p fs2 np).visited ++ _
          rw [hsim.2.1, hihR.2.1]
    | page d =>
      by_cases hd : d = np
      · rw [dryLines_page_pos vD fs2 np rest hc hd] at hnd hag ⊢
        rw [goLines_page_pos vL fs1 np rest hc hd]
        have hihR := ih fs1 fs2 (np + 1) hnd hag
        exact ⟨hihR.1, hihR.2.1, hihR.2.2⟩
      · rw [dryLines_page_neg vD fs2 np rest hc hd] at hnd hag ⊢
        have hihR := ih fs1 fs2 (np + 1) hnd hag
        cases hsfL : (goLines vL fs1 (np + 1) rest).final with
        | none =>
          rw [goLines_page_neg_none vL fs1 np rest hc hd hsfL]
          refine ⟨?_, hihR.2.1, ?_⟩
          · show (d, np) :: _ = (d, np) :: _
            rw [hihR.1]
          · have hmm := hihR.2.2
            rw [hsfL] at hmm
            exact hmm
        | some x =>
          obtain ⟨np2, ch⟩ := x
          rw [goLines_page_neg_some vL fs1 np rest np2 ch hc hd hsfL]
          refine ⟨?_, hihR.2.1, ?_⟩
          · show (d, np) :: _ = (d, np) :: _
            rw [hihR.1]
          · have hmm := hihR.2.2
            rw [hsfL] at hmm
            show (some (np2, true)).map Prod.fst = _
            simpa using hmm
    | plain =>
      rw [dryLines_plain vD fs2 np rest hc] at hnd hag ⊢
      rw [goLines_plain vL fs1 np rest hc]
      have hihR := ih fs1 fs2 np hnd hag
      exact ⟨hihR.1, hihR.2.1, hihR.2.2⟩

/-- File-level simulation between `renumber` and `dryRun` at every fuel. -/
theorem simFile : ∀ fuel, SimOK (goFile fuel) (dryFile fuel) := by
  intro fuel
  induction fuel with
  | zero =>
    intro p fs1 fs2 np _ _
    rw [goFile_zero, dryFile_zero]
    exact ⟨rfl, rfl, rfl⟩
  | succ m ih =>
    intro p fs1 fs2 np hnd hag
    cases hfd : fsFind fs2 p with
    | none =>
      rw [dryFile_not_found m np hfd] at hnd hag ⊢
      have hag' : agrees fs1 fs2 [p] := hag
      have hfl : fsFind fs1 p = none := by
        rw [hag' p (List.mem_singleton_self p), hfd]
      rw [goFile_not_found m np hfl]
      exact ⟨rfl, rfl, rfl⟩
    | some lines =>
      rw [dryFile_found m np hfd] at hnd hag ⊢
      have hnd' : (p :: (dryLines (dryFile m) fs2 np lines).visited).Nodup := hnd
      have hag' : agrees fs1 fs2 (p :: (dryLines (dryFile m) fs2 np lines).visited) := hag
      have hfl : fsFind fs1 p = some lines := by
        rw [hag' p (List.mem_cons_self p _), hfd]
      have hsl := simLines (goFile m) (dryFile m) ih (goFile_frame m) lines fs1 fs2 np
        (List.Nodup.of_cons hnd') (fun g hg => hag' g (List.mem_cons_of_mem p hg))
      cases hsfL : (goLines (goFile m) fs1 np lines).final with
      | none =>
        have hsfD : (dryLines (dryFile m) fs2 np lines).final = none := by
          rw [← hsl.2.2, hsfL]
          rfl
        rw [goFile_found_abort m np hfl hsfL]
        refine ⟨hsl.1, ?_, ?_⟩
        · show p :: _ = p :: _
          rw [hsl.2.1]
        · show (none : Option Nat) = _
          rw [hsfD]
      | some x =>
        obtain ⟨np2, ch⟩ := x
        have hsfD : (dryLines (dryFile m) fs2 np lines).final = some np2 := by
          rw [← hsl.2.2, hsfL]
          rfl
        rw [goFile_found_done m np np2 ch hfl hsfL]
        refine ⟨hsl.1, ?_, ?_⟩
        · show p :: _ = p :: _
          rw [hsl.2.1]
        · show some np2 = _
          rw [hsfD]

/-! ## Idempotence: a second live run over the committed output is a no-op -/

/-- No-op property of a live visitor: after a completed visit with no file
opened twice, re-running the visit against any file system that holds the
committed contents of the visited files prints nothing, changes nothing and
ends with the same counter. -/
def NoopOK (vL : String → FS → Nat → VRes) : Prop :=
  ∀ p fs np np2 fs2, (vL p fs np).final = some np2 → (vL p fs np).visited.Nodup →
    agrees fs2 (vL p fs np).fs (vL p fs np).visited →
    (vL p fs2 np).notices = [] ∧ (vL p fs2 np).visited = (vL p fs np).visited ∧
    (vL p fs2 np).fs = fs2 ∧ (vL p fs2 np).final = some np2

/-- Lines-level no-op: re-processing the buffered output of a completed
traversal, starting from the same counter, yields no notices, no changes,
and the very same output. -/
theorem noopLines (vL : String → FS → Nat → VRes) (hF : FrameOK vL) (hN : NoopOK vL) :
    ∀ lines fs np np2 ch fs2,
      (goLines vL fs np lines).final = some (np2, ch) →
      (goLines vL fs np lines).visited.Nodup →
      agrees fs2 (goLines vL fs np lines).fs (goLines vL fs np lines).visited →
      (goLines vL fs2 np ((goLines vL fs np lines).out)).notices = [] ∧
      (goLines vL fs2 np ((goLines vL fs np lines).out)).visited =
        (goLines vL fs np lines).visited ∧
      (goLines vL fs2 np ((goLines vL fs np lines).out)).fs = fs2 ∧
      (goLines vL fs2 np ((goLines vL fs np lines).out)).out =
        (goLines vL fs np lines).out ∧
      (goLines vL fs2 np ((goLines vL fs np lines).out)).final = some (np2, false) := by
  intro lines
  induction lines with
  | nil =>
    intro fs np np2 ch fs2 hfin _ _
    rw [goLines_nil] at hfin ⊢
    have hfin' : some ((np : Nat), false) = some (np2, ch) := hfin
    have hnp : np = np2 := by
      simpa using congrArg (fun o => Option.map Prod.fst o) hfin'
    rw [goLines_nil, hnp]
    exact ⟨rfl, rfl, rfl, rfl, rfl⟩
  | cons line rest ih =>
    intro fs np np2 ch fs2 hfin hnd hag
    cases hc : classify line with
    | ins p =>
      cases hrf : (vL p fs np).final with
      | none =>
        rw [goLines_ins_none vL fs np rest hc hrf] at hfin
        cases hfin
      | some np1 =>
        rw [goLines_ins_some vL fs np rest np1 hc hrf] at hfin hnd hag ⊢
        have hnd' : ((vL p fs np).visited ++
            (goLines vL (vL p fs np).fs np1 rest).visited).Nodup := hnd
        rw [List.nodup_append] at hnd'
        have hagC : agrees fs2 (vL p fs np).fs (vL p fs np).visited := by
          intro g hg
          have h1 : fsFind fs2 g =
              fsFind (goLines vL (vL p fs np).fs np1 rest).fs g :=
            hag g (List.mem_append_left _ hg)
          have h2 : fsFind (goLines vL (vL p fs np).fs np1 rest).fs g =
              fsFind (vL p fs np).fs g := by
            by_contra hne
            exact hnd'.2.2 hg
              (goLines_frame vL hF rest (vL p fs np).fs np1 g (by rw [hfin]; rfl) hne)
          rw [h1, h2]
        have hchild := hN p fs np np1 fs2 hrf hnd'.1 hagC
        rw [goLines_ins_some vL fs2 np
          ((goLines vL (vL p fs np).fs np1 rest).out) np1 hc hchild.2.2.2]
        rw [hchild.2.2.1]
        have hagR : agrees fs2 (goLines vL (vL p fs np).fs np1 rest).fs
            (goLines vL (vL p fs np).fs np1 rest).visited :=
          fun g hg => hag g (List.mem_append_right _ hg)
        have hih := ih (vL p fs np).fs np1 np2 ch fs2 hfin hnd'.2.1 hagR
        refine ⟨?_, ?_, hih.2.2.1, ?_, hih.2.2.2.2⟩
        · show (vL p fs2 np).notices ++ _ = []
          rw [hchild.1, hih.1]
          rfl
        · show (vL p fs2 np).visited ++ _ = _
          rw [hchild.2.1, hih.2.1]
        · show line :: _ = line :: _
          rw [hih.2.2.2.1]
    | page d =>
      by_cases hd : d = np
      · rw [goLines_page_pos vL fs np rest hc hd] at hfin hnd hag ⊢
        rw [goLines_page_pos vL fs2 np ((goLines vL fs (np + 1) rest).out) hc hd]
        have hih := ih fs (np + 1) np2 ch fs2 hfin hnd hag
        refine ⟨hih.1, hih.2.1, hih.2.2.1, ?_, hih.2.2.2.2⟩
        show line :: _ = line :: _
        rw [hih.2.2.2.1]
      · cases hsf : (goLines vL fs (np + 1) rest).final with
        | none =>
          rw [goLines_page_neg_none vL fs np rest hc hd hsf] at hfin
          cases hfin
        | some x =>
          obtain ⟨np3, ch3⟩ := x
          rw [goLines_page_neg_some vL fs np rest np3 ch3 hc hd hsf] at hfin hnd hag ⊢
          have hfin' : some ((np3 : Nat), true) = some (np2, ch) := hfin
          have hnp : np3 = np2 := by
            simpa using congrArg (fun o => Option.map Prod.fst o) hfin'
          rw [goLines_page_pos vL fs2 np ((goLines vL fs (np + 1) rest).out)
            (classify_lineRepl np) rfl]
          have hih := ih fs (np + 1) np3 ch3 fs2 hsf hnd hag
          refine ⟨hih.1, hih.2.1, hih.2.2.1, ?_, ?_⟩
          · show lineRepl np :: _ = lineRepl np :: _
            rw [hih.2.2.2.1]
          · show (goLines vL fs2 (np + 1) _).final = _
            rw [hih.2.2.2.2, hnp]
    | plain =>
      rw [goLines_plain vL fs np rest hc] at hfin hnd hag ⊢
      rw [goLines_plain vL fs2 np ((goLines vL fs np rest).out) hc]
      have hih := ih fs np np2 ch fs2 hfin hnd hag
      refine ⟨hih.1, hih.2.1, hih.2.2.1, ?_, hih.2.2.2.2⟩
      show line :: _ = line :: _
      rw [hih.2.2.2.1]

/-- File-level no-op property of the live engine at every fuel. -/
theorem noopFile : ∀ fuel, NoopOK (goFile fuel) := by
  intro fuel
  induction fuel with
  | zero =>
    intro p fs np np2 fs2 hfin _ _
    rw [goFile_zero] at hfin
    cases hfin
  | succ m ih =>
    intro p fs np np2 fs2 hfin hnd hag
    cases hf : fsFind fs p with
    | none =>
      rw [goFile_not_found m np hf] at hfin
      cases hfin
    | some lines =>
      cases hsf : (goLines (goFile m) fs np lines).final with
      | none =>
        rw [goFile_found_abort m np hf hsf] at hfin
        cases hfin
      | some x =>
        obtain ⟨np2', ch⟩ := x
        rw [goFile_found_done m np np2' ch hf hsf] at hfin hnd hag ⊢
        have hnp : np2' = np2 := by
          have hfin' : some np2' = some np2 := hfin
          exact Option.some.inj hfin'
        have hnd' : (p :: (goLines (goFile m) fs np lines).visited).Nodup := hnd
        rw [List.nodup_cons] at hnd'
        have hframe : ∀ g, fsFind (goLines (goFile m) fs np lines).fs g ≠ fsFind fs g →
            g ∈ (goLines (goFile m) fs np lines).visited :=
          fun g => goLines_frame (goFile m) (goFile_frame m) lines fs np g (by rw [hsf]; rfl)
        have hagS : agrees fs2 (goLines (goFile m) fs np lines).fs
            (goLines (goFile m) fs np lines).visited := by
          intro g hg
          have hgp : g ≠ p := fun hcon => hnd'.1 (hcon ▸ hg)
          have h1 := hag g (List.mem_cons_of_mem p hg)
          cases ch with
          | false => exact h1
          | true =>
            rw [if_pos rfl, fsFind_set_ne _ p g _ hgp] at h1
            exact h1
        have hfp : fsFind fs2 p = some ((goLines (goFile m) fs np lines).out) := by
          have h1 := hag p (List.mem_cons_self p _)
          cases ch with
          | true =>
            rw [if_pos rfl, fsFind_set_self] at h1
            exact h1
          | false =>
            rw [if_neg (by decide : ¬ (false = true))] at h1
            have h2 : fsFind (goLines (goFile m) fs np lines).fs p = fsFind fs p := by
              by_contra hne
              exact hnd'.1 (hframe p hne)
            rw [h1, h2, hf, goLines_out_unchanged (goFile m) lines fs np np2' hsf]
        have hnl := noopLines (goFile m) (goFile_frame m) ih lines fs np np2' ch fs2
          hsf hnd'.2 hagS
        rw [goFile_found_done_false m np np2' hfp hnl.2.2.2.2]
        refine ⟨hnl.1, ?_, hnl.2.2.1, ?_⟩
        · show p :: _ = p :: _
          rw [hnl.2.1]
        · show some np2' = some np2
          rw [hnp]

/-! ## Abort after a completed prefix: composition lemmas -/

/-- If processing the lines `a` completes and processing `b` from the
resulting state aborts, then processing `a ++ b` aborts with exactly the
notices, rewrites and buffered output accumulated so far. -/
theorem goLines_append_abort (v : String → FS → Nat → VRes) :
    ∀ a fs np np1 ch1 b,
      (goLines v fs np a).final = some (np1, ch1) →
      (goLines v (goLines v fs np a).fs np1 b).final = none →
      goLines v fs np (a ++ b) =
        ⟨(goLines v fs np a).notices ++ (goLines v (goLines v fs np a).fs np1 b).notices,
          (goLines v fs np a).marks ++ (goLines v (goLines v fs np a).fs np1 b).marks,
          (goLines v fs np a).visited ++ (goLines v (goLines v fs np a).fs np1 b).visited,
          (goLines v (goLines v fs np a).fs np1 b).fs,
          (goLines v fs np a).out ++ (goLines v (goLines v fs np a).fs np1 b).out,
          none⟩ := by
  intro a
  induction a with
  | nil =>
    intro fs np np1 ch1 b hfin hb
    rw [goLines_nil] at hfin hb ⊢
    have hfin' : some ((np : Nat), false) = some (np1, ch1) := hfin
    have hnp : np = np1 := by
      simpa using congrArg (fun o => Option.map Prod.fst o) hfin'
    subst hnp
    rw [List.nil_append, ← hb]
    rfl
  | cons x a iha =>
    intro fs np np1 ch1 b hfin hb
    rw [List.cons_append]
    cases hc : classify x with
    | ins p =>
      cases hrf : (v p fs np).final with
      | none =>
        rw [goLines_ins_none v fs np a hc hrf] at hfin
        cases hfin
      | some npc =>
        rw [goLines_ins_some v fs np a npc hc hrf] at hfin hb ⊢
        rw [goLines_ins_some v fs np (a ++ b) npc hc hrf]
        rw [iha (v p fs np).fs npc np1 ch1 b hfin hb]
        simp [List.append_assoc]
    | page d =>
      by_cases hd : d = np
      · rw [goLines_page_pos v fs np a hc hd] at hfin hb ⊢
        rw [goLines_page_pos v fs np (a ++ b) hc hd]
        rw [iha fs (np + 1) np1 ch1 b hfin hb]
        simp [List.append_assoc]
      · cases hsf : (goLines v fs (np + 1) a).final with
        | none =>
          rw [goLines_page_neg_none v fs np a hc hd hsf] at hfin
          cases hfin
        | some x3 =>
          obtain ⟨np3, ch3⟩ := x3
          rw [goLines_page_neg_some v fs np a np3 ch3 hc hd hsf] at hfin hb ⊢
          have hfin' : some ((np3 : Nat), true) = some (np1, ch1) := hfin
          have hnp : np3 = np1 := by
            simpa using congrArg (fun o => Option.map Prod.fst o) hfin'
          subst hnp
          have hab := iha fs (np + 1) np3 ch3 b hsf hb
          rw [goLines_page_neg_none v fs np (a ++ b) hc hd (by rw [hab])]
          rw [hab]
          simp [List.append_assoc]
    | plain =>
      rw [goLines_plain v fs np a hc] at hfin hb ⊢
      rw [goLines_plain v fs np (a ++ b) hc]
      rw [iha fs np np1 ch1 b hfin hb]
      simp [List.append_assoc]

/-- Dry-mode counterpart of `goLines_append_abort`. -/
theorem dryLines_append_abort (v : String → FS → Nat → DRes) :
    ∀ a fs np np1 b,
      (dryLines v fs np a).final = some np1 →
      (dryLines v fs np1 b).final = none →
      dryLines v fs np (a ++ b) =
        ⟨(dryLines v fs np a).notices ++ (dryLines v fs np1 b).notices,
          (dryLines v fs np a).marks ++ (dryLines v fs np1 b).marks,
          (dryLines v fs np a).visited ++ (dryLines v fs np1 b).visited,
          none⟩ := by
  intro a
  induction a with
  | nil =>
    intro fs np np1 b hfin hb
    rw [dryLines_nil] at hfin ⊢
    have hnp : np = np1 := Option.some.inj hfin
    subst hnp
    rw [List.nil_append, ← hb]
    rfl
  | cons x a iha =>
    intro fs np np1 b hfin hb
    rw [List.cons_append]
    cases hc : classify x with
    | ins p =>
      cases hrf : (v p fs np).final with
      | none =>
        rw [dryLines_ins_none v fs np a hc hrf] at hfin
        cases hfin
      | some npc =>
        rw [dryLines_ins_some v fs np a npc hc hrf] at hfin ⊢
        rw [dryLines_ins_some v fs np (a ++ b) npc hc hrf]
        rw [iha fs npc np1 b hfin hb]
        simp [List.append_assoc]
    | page d =>
      by_cases hd : d = np
      · rw [dryLines_page_pos v fs np a hc hd] at hfin ⊢
        rw [dryLines_page_pos v fs np (a ++ b) hc hd]
        rw [iha fs (np + 1) np1 b hfin hb]
        simp [List.append_assoc]
      · rw [dryLines_page_neg v fs np a hc hd] at hfin ⊢
        rw [dryLines_page_neg v fs np (a ++ b) hc hd]
        rw [iha fs (np + 1) np1 b hfin hb]
        simp [List.append_assoc]
    | plain =>
      rw [dryLines_plain v fs np a hc] at hfin ⊢
      rw [dryLines_plain v fs np (a ++ b) hc]
      exact iha fs np np1 b hfin hb

/-! ## Spec-side line grammars (for comparison against the code) -/

/-- Modelled from the spec claim C4: a line is an insertion directive exactly
when its first non-whitespace run begins with the sentinel immediately
followed by a path token, the token being all characters up to the next
whitespace or end of line (the line terminator is not part of the token). -/
def specInsertTok (line : String) : Option String :=
  match line.data.dropWhile isWs with
  | '$' :: rest =>
    match rest.takeWhile (fun c => !(isWs c || c = '\n' || c = '\r')) with
    | [] => none
    | tok => some (String.mk tok)
  | _ => none

/-- Modelled from the spec claim C3: a page marker has the shape
`<optional-ws><comment-marker><optional-ws>Page<required-ws><unsigned-integer><rest-of-line>`,
with leading horizontal whitespace before the comment marker permitted and
ignored. -/
def specPageNum (line : String) : Option Nat :=
  match line.data.dropWhile isWs with
  | '#' :: '#' :: r1 =>
    match r1.dropWhile isWs with
    | 'P' :: 'a' :: 'g' :: 'e' :: r2 =>
      match r2 with
      | c :: r3 =>
        if isWs c then
          match (r3.dropWhile isWs).takeWhile isDigitCh with
          | [] => none
          | ds => some (digitsToNat ds)
        else none
      | [] => none
    | _ => none
  | _ => none

/-! ## Inversion of `classify` -/

theorem classify_eq_ins (line : String) (p : String) :
    classify line = .ins p ↔ insertTok line = some p := by
  constructor
  · intro h
    unfold classify at h
    cases hit : insertTok line with
    | some q =>
      rw [hit] at h
      have : LineKind.ins q = LineKind.ins p := h
      rw [LineKind.ins.injEq] at this
      rw [this]
    | none =>
      rw [hit] at h
      cases hpn : pageNum line with
      | some d =>
        rw [hpn] at h
        cases h
      | none =>
        rw [hpn] at h
        cases h
  · intro h
    unfold classify
    rw [h]

theorem classify_eq_page (line : String) (d : Nat) :
    classify line = .page d ↔ insertTok line = none ∧ pageNum line = some d := by
  constructor
  · intro h
    unfold classify at h
    cases hit : insertTok line with
    | some q =>
      rw [hit] at h
      cases h
    | none =>
      rw [hit] at h
      cases hpn : pageNum line with
      | some d2 =>
        rw [hpn] at h
        have hdd : LineKind.page d2 = LineKind.page d := h
        rw [LineKind.page.injEq] at hdd
        exact ⟨rfl, by rw [hdd]⟩
      | none =>
        rw [hpn] at h
        cases h
  · intro h
    unfold classify
    rw [h.1, h.2]

/-! ## Characterization of the insertion-directive syntax the code accepts -/

/-- What `INSERT_RE.match` actually accepts: the `$` must be the very first
character of the line (no leading whitespace), and the token is the maximal
nonempty run of characters other than space and tab after it — a run that
includes the line terminator when the token reaches the end of the line. -/
theorem insertTok_eq_some_iff (line : String) (p : String) :
    insertTok line = some p ↔
      ∃ r, line.data = '$' :: (p.data ++ r) ∧ p.data ≠ [] ∧
        (∀ c ∈ p.data, isWs c = false) ∧
        (∀ c, r.head? = some c → isWs c = true) := by
  constructor
  · intro h
    unfold insertTok at h
    split at h
    · rename_i rest heq
      split at h
      · cases h
      · rename_i tok hne
        have hp : String.mk (List.takeWhile (fun c => !isWs c) rest) = p :=
          Option.some.inj h
        have hpd : p.data = List.takeWhile (fun c => !isWs c) rest := by
          rw [← hp]
        refine ⟨rest.dropWhile (fun c => !isWs c), ?_, ?_, ?_, ?_⟩
        · rw [heq, hpd, List.takeWhile_append_dropWhile]
        · rw [hpd]
          intro hcon
          exact hne hcon
        · intro c hc
          rw [hpd] at hc
          have := List.mem_takeWhile_imp hc
          simpa using this
        · intro c hc
          have hh := List.head?_dropWhile_not (fun c => !isWs c) rest
          rw [hc] at hh
          simpa using hh
    · cases h
  · rintro ⟨r, hdata, hne, hmem, hhead⟩
    unfold insertTok
    rw [hdata]
    show (match (p.data ++ r).takeWhile (fun c => !isWs c) with
      | [] => none
      | tok => some (String.mk tok)) = some p
    have htw : (p.data ++ r).takeWhile (fun c => !isWs c) = p.data := by
      rw [List.takeWhile_append_of_pos (by intro a ha; simp [hmem a ha])]
      cases hr : r with
      | nil => simp
      | cons c r2 =>
        rw [List.takeWhile_cons_of_neg (by simp [hhead c (by rw [hr]; rfl)])]
        simp
    rw [htw]
    cases hp : p.data with
    | nil => exact absurd hp hne
    | cons c cs =>
      show some (String.mk (c :: cs)) = some p
      rw [← hp]

/-! ## Characterization of the page-marker syntax the code accepts -/

/-- What `PAGE_RE.match` actually accepts: `##` must start the line (no
leading whitespace); optional horizontal whitespace may separate `##` from
`Page`; at least one whitespace character then a nonempty digit run follows,
and anything may follow the digits as long as it does not extend them. -/
theorem pageNum_eq_some_iff (line : String) (d : Nat) :
    pageNum line = some d ↔
      ∃ w1 w2 ds r, line.data =
          '#' :: '#' :: (w1 ++ ('P' :: 'a' :: 'g' :: 'e' :: (w2 ++ (ds ++ r)))) ∧
        (∀ c ∈ w1, isWs c = true) ∧ w2 ≠ [] ∧ (∀ c ∈ w2, isWs c = true) ∧
        ds ≠ [] ∧ (∀ c ∈ ds, isDigitCh c = true) ∧
        (∀ c, r.head? = some c → isDigitCh c = false) ∧ d = digitsToNat ds := by
  constructor
  · intro h
    unfold pageNum at h
    split at h
    · rename_i r1 heq
      split at h
      · rename_i r2 heq2
        split at h
        · rename_i c r3
          split at h
          · rename_i hws
            split at h
            · cases h
            · rename_i ds0 hdne
              have hd : d = digitsToNat ((r3.dropWhile isWs).takeWhile isDigitCh) :=
                (Option.some.inj h).symm
              refine ⟨r1.takeWhile isWs, c :: r3.takeWhile isWs,
                (r3.dropWhile isWs).takeWhile isDigitCh,
                (r3.dropWhile isWs).dropWhile isDigitCh, ?_, ?_, ?_, ?_, ?_, ?_, ?_, hd⟩
              · rw [heq]
                have e1 : r1.takeWhile isWs ++
                    ('P' :: 'a' :: 'g' :: 'e' :: ((c :: r3.takeWhile isWs) ++
                      ((r3.dropWhile isWs).takeWhile isDigitCh ++
                        (r3.dropWhile isWs).dropWhile isDigitCh))) = r1 := by
                  rw [List.takeWhile_append_dropWhile]
                  conv_rhs => rw [← List.takeWhile_append_dropWhile isWs r1]
                  rw [heq2]
                  congr 5
                  rw [List.cons_append, List.takeWhile_append_dropWhile]
                rw [e1]
              · intro c2 hc2
                exact List.mem_takeWhile_imp hc2
              · intro hcon
                cases hcon
              · intro c2 hc2
                rcases List.mem_cons.mp hc2 with h2 | h2
                · rw [h2]
                  exact hws
                · exact List.mem_takeWhile_imp h2
              · intro hcon
                exact hdne hcon
              · intro c2 hc2
                exact List.mem_takeWhile_imp hc2
              · intro c2 hc2
                have hh := List.head?_dropWhile_not isDigitCh (r3.dropWhile isWs)
                rw [hc2] at hh
                simpa using hh
          · cases h
        · cases h
      · cases h
    · cases h
  · rintro ⟨w1, w2, ds, r, hdata, hw1, hw2ne, hw2, hdsne, hds, hr, hd⟩
    obtain ⟨c, w2', hw2eq⟩ : ∃ c w2', w2 = c :: w2' := by
      cases hx : w2 with
      | nil => exact absurd hx hw2ne
      | cons c w2' => exact ⟨c, w2', rfl⟩
    obtain ⟨d0, ds', hdseq⟩ : ∃ d0 ds', ds = d0 :: ds' := by
      cases hx : ds with
      | nil => exact absurd hx hdsne
      | cons d0 ds' => exact ⟨d0, ds', rfl⟩
    unfold pageNum
    rw [hdata]
    show (match (w1 ++ ('P' :: 'a' :: 'g' :: 'e' :: (w2 ++ (ds ++ r)))).dropWhile isWs with
      | 'P' :: 'a' :: 'g' :: 'e' :: r2 =>
        match r2 with
        | c :: r3 =>
          if isWs c then
            match (r3.dropWhile isWs).takeWhile isDigitCh with
            | [] => none
            | ds => some (digitsToNat ds)
          else none
        | [] => none
      | _ => none) = some d
    rw [List.dropWhile_append_of_pos (by intro a ha; simp [hw1 a ha]),
      List.dropWhile_cons_of_neg (by decide : ¬ isWs 'P' = true)]
    rw [hw2eq, List.cons_append]
    show (if isWs c then
        match ((w2' ++ (ds ++ r)).dropWhile isWs).takeWhile isDigitCh with
        | [] => none
        | ds => some (digitsToNat ds)
      else none) = some d
    rw [if_pos (hw2 c (by rw [hw2eq]; exact List.mem_cons_self c w2'))]
    have hstep : ((w2' ++ (ds ++ r)).dropWhile isWs).takeWhile isDigitCh = ds := by
      rw [List.dropWhile_append_of_pos
        (by intro a ha; simp [hw2 a (by rw [hw2eq]; exact List.mem_cons_of_mem c ha)])]
      rw [hdseq, List.cons_append,
        List.dropWhile_cons_of_neg (by
          rw [isWs_of_isDigit d0 (hds d0 (by rw [hdseq]; exact List.mem_cons_self d0 ds'))]
          exact Bool.false_ne_true),
        ← List.cons_append, ← hdseq]
      rw [List.takeWhile_append_of_pos hds]
      cases hrr : r with
      | nil => simp
      | cons c2 r2 =>
        rw [List.takeWhile_cons_of_neg (by
          rw [hr c2 (by rw [hrr]; rfl)]
          exact Bool.false_ne_true)]
        simp
    rw [hstep, hdseq]
    show some (digitsToNat (d0 :: ds')) = some d
    rw [← hdseq, hd]

/-! ## Arithmetic of the word dumper -/

/-- `h << 7 | l >> 1` is plain arithmetic when the low byte fits a byte:
the shifted high part and the halved low part occupy disjoint bit ranges. -/
theorem word_eq (h l : Nat) (hl : l < 256) : word h l = h * 128 + l / 2 := by
  have hb : l / 2 < 2 ^ 7 := by
    have : l / 2 < 128 := by omega
    simpa using this
  have key := Nat.mul_add_lt_is_or hb h
  unfold word
  rw [Nat.shiftLeft_eq, Nat.shiftRight_eq_div_pow]
  have e1 : (2 : Nat) ^ 1 = 2 := by norm_num
  rw [e1, Nat.mul_comm h (2 ^ 7), ← key]

/-- Every word the dumper emits from a byte stream is below `2^15`. -/
theorem dumpWords_lt : ∀ bs : List Nat, (∀ b ∈ bs, b < 256) →
    ∀ w ∈ dumpWords bs, w < 32768 := by
  intro bs
  induction bs using dumpWords.induct with
  | case1 =>
    intro _ w hw
    cases hw
  | case2 h =>
    intro hb w hw
    rw [dumpWords] at hw
    rcases List.mem_singleton.mp hw with rfl
    rw [word_eq h 0 (by omega)]
    have := hb h (List.mem_singleton_self h)
    omega
  | case3 h l rest ih =>
    intro hb w hw
    rw [dumpWords] at hw
    rcases List.mem_cons.mp hw with rfl | hw2
    · rw [word_eq h l (hb l (by simp))]
      have h1 := hb h (by simp)
      have h2 := hb l (by simp)
      omega
    · exact ih (fun b hbm => hb b (by simp [hbm])) w hw2

/-! ## Claim theorems -/

/-- C1: for every traversal started from an entry file, the page counter
starts at 1; after N page markers have been observed across the whole
traversal in visitation order the counter equals N + 1 (so on a completed
run the final counter is the marker count plus one); and the sequence of
expected values consumed by successive page markers is exactly 1, 2, 3, …
independent of the declared numbers.  This holds in dry mode and in live
mode alike. -/
theorem c1_page_counter (fuel : Nat) (f : String) (fs : FS) :
    (dryFile fuel f fs 1).marks.map Prod.snd =
      List.range' 1 (dryFile fuel f fs 1).marks.length ∧
    (∀ np2, (dryFile fuel f fs 1).final = some np2 →
      np2 = (dryFile fuel f fs 1).marks.length + 1) ∧
    (goFile fuel f fs 1).marks.map Prod.snd =
      List.range' 1 (goFile fuel f fs 1).marks.length ∧
    (∀ np2, (goFile fuel f fs 1).final = some np2 →
      np2 = (goFile fuel f fs 1).marks.length + 1) := by
  have hd := dryFile_marks fuel f fs 1
  have hg := goFile_marks fuel f fs 1
  refine ⟨hd.1, ?_, hg.1, ?_⟩
  · intro np2 h
    have := hd.2 np2 h
    omega
  · intro np2 h
    have := hg.2 np2 h
    omega

/-- Witness for C1 at a concrete two-file tree. -/
theorem c1_page_counter_witness :
    (dryFile 2 "m" [("m", ["## Page 1\n", "$sub \n"]), ("sub", ["## Page 5\n"])] 1).marks.map
        Prod.snd =
      List.range' 1
        (dryFile 2 "m" [("m", ["## Page 1\n", "$sub \n"]), ("sub", ["## Page 5\n"])]
          1).marks.length ∧
    (3 : Nat) =
      (dryFile 2 "m" [("m", ["## Page 1\n", "$sub \n"]), ("sub", ["## Page 5\n"])]
        1).marks.length + 1 := by
  have h := c1_page_counter 2 "m" [("m", ["## Page 1\n", "$sub \n"]), ("sub", ["## Page 5\n"])]
  exact ⟨h.1, h.2.1 3 (by decide)⟩

/-- C2 counterexample: on the marker line `##<TAB>Page  5 END` with expected
number 1, the code replaces the whole line by the canonical `## Page 1`
line — the original comment-marker prefix (tab, double space) and the
trailing text ` END` are not preserved, contradicting the claim that only
the numeral is rewritten. -/
theorem c2_counterexample :
    goFile 1 "m" [("m", ["##\tPage  5 END\n"])] 1 =
      ⟨[(5, 1)], [(5, 1)], ["m"], [("m", ["## Page 1\n"])], some 2⟩ ∧
    ("## Page 1\n" : String) ≠ "##\tPage  1 END\n" := by
  exact ⟨by decide, by decide⟩

/-- C2 amended: when the declared number D differs from the expected number
E, the entire line is replaced by the canonical marker `'## Page ' + str(E)`
plus a newline, discarding the original prefix and any text after the
number; when D equals E the line is passed through byte-for-byte, so
whitespace-only variants of a correct marker line are never normalized. -/
theorem c2_amended (v : String → FS → Nat → VRes) (fs : FS) (np : Nat)
    (line : String) (d : Nat) (hc : classify line = .page d) :
    (d ≠ np → goLines v fs np [line] =
      ⟨[(d, np)], [(d, np)], [], fs, [lineRepl np], some (np + 1, true)⟩) ∧
    (d = np → goLines v fs np [line] =
      ⟨[], [(d, np)], [], fs, [line], some (np + 1, false)⟩) := by
  constructor
  · intro hd
    rw [goLines_page_neg_some v fs np [] (np + 1) false hc hd (by rw [goLines_nil])]
    rw [goLines_nil]
  · intro hd
    rw [goLines_page_pos v fs np [] hc hd, goLines_nil]

/-- Witness for C2 amended at a concrete marker line. -/
theorem c2_amended_witness :
    goLines (goFile 0) [] 1 ["## Page 5\n"] =
      ⟨[(5, 1)], [(5, 1)], [], [], [lineRepl 1], some (2, true)⟩ ∧
    goLines (goFile 0) [] 5 ["## Page 5\n"] =
      ⟨[], [(5, 5)], [], [], ["## Page 5\n"], some (6, false)⟩ :=
  ⟨(c2_amended (goFile 0) [] 1 "## Page 5\n" 5 (by decide)).1 (by decide),
   (c2_amended (goFile 0) [] 5 "## Page 5\n" 5 (by decide)).2 rfl⟩

/-- C3 counterexample: the line ` ## Page 2` (one leading space) matches the
spec's page-marker shape, but `PAGE_RE.match` is anchored at the start of
the line, so the code classifies it as a plain line and the counter is
neither consumed nor advanced. -/
theorem c3_counterexample :
    specPageNum " ## Page 2\n" = some 2 ∧
    classify " ## Page 2\n" = LineKind.plain ∧
    dryFile 1 "m" [("m", [" ## Page 2\n"])] 1 = ⟨[], [], ["m"], some 1⟩ := by
  exact ⟨by decide, by decide, by decide⟩

/-- C3 amended: a line is recognized as a page marker declaring `d` exactly
when it has the shape `##<optional-ws>Page<required-ws><digits><rest>` with
the comment marker at the very start of the line (no leading whitespace is
permitted), the digit run maximal, and `d` the value of the digit run. -/
theorem c3_amended (line : String) (d : Nat) :
    classify line = .page d ↔
      ∃ w1 w2 ds r, line.data =
          '#' :: '#' :: (w1 ++ ('P' :: 'a' :: 'g' :: 'e' :: (w2 ++ (ds ++ r)))) ∧
        (∀ c ∈ w1, isWs c = true) ∧ w2 ≠ [] ∧ (∀ c ∈ w2, isWs c = true) ∧
        ds ≠ [] ∧ (∀ c ∈ ds, isDigitCh c = true) ∧
        (∀ c, r.head? = some c → isDigitCh c = false) ∧ d = digitsToNat ds := by
  rw [classify_eq_page, pageNum_eq_some_iff]
  constructor
  · intro h
    exact h.2
  · intro h
    refine ⟨?_, h⟩
    obtain ⟨w1, w2, ds, r, hdata, _⟩ := h
    unfold insertTok
    rw [hdata]
    rfl

/-- Witness for C3 amended at a concrete marker line. -/
theorem c3_amended_witness :
    ∃ w1 w2 ds r, ("##  Page 12 x\n" : String).data =
        '#' :: '#' :: (w1 ++ ('P' :: 'a' :: 'g' :: 'e' :: (w2 ++ (ds ++ r)))) ∧
      (∀ c ∈ w1, isWs c = true) ∧ w2 ≠ [] ∧ (∀ c ∈ w2, isWs c = true) ∧
      ds ≠ [] ∧ (∀ c ∈ ds, isDigitCh c = true) ∧
      (∀ c, r.head? = some c → isDigitCh c = false) ∧ (12 : Nat) = digitsToNat ds :=
  (c3_amended "##  Page 12 x\n" 12).mp (by decide)

/-- C4 counterexample: the spec's insertion-directive recognition (leading
whitespace allowed before the sentinel, token ended by whitespace or end of
line) disagrees with the code twice over: ` $x` satisfies the spec shape but
`INSERT_RE.match` rejects it (classified plain), and on `$sub` followed by a
newline the code's token is `sub\n` — the line terminator is part of the
captured token, because `[^ \t]` does not exclude it. -/
theorem c4_counterexample :
    specInsertTok " $x" = some "x" ∧ classify " $x" = LineKind.plain ∧
    specInsertTok "$sub\n" = some "sub" ∧ classify "$sub\n" = LineKind.ins "sub\n" := by
  exact ⟨by decide, by decide, by decide, by decide⟩

/-- C4 amended: a line is classified as an insertion directive with token
`p` exactly when its very first character is the `$` sentinel, immediately
followed by the nonempty token `p` consisting of all characters up to the
next space or tab or the end of the string — any line-terminator characters
included. -/
theorem c4_amended (line : String) (p : String) :
    classify line = .ins p ↔
      ∃ r, line.data = '$' :: (p.data ++ r) ∧ p.data ≠ [] ∧
        (∀ c ∈ p.data, isWs c = false) ∧
        (∀ c, r.head? = some c → isWs c = true) := by
  rw [classify_eq_ins, insertTok_eq_some_iff]

/-- Witness for C4 amended at a concrete directive line. -/
theorem c4_amended_witness :
    ∃ r, ("$abc d" : String).data = '$' :: (("abc" : String).data ++ r) ∧
      ("abc" : String).data ≠ [] ∧ (∀ c ∈ ("abc" : String).data, isWs c = false) ∧
      (∀ c, r.head? = some c → isWs c = true) :=
  (c4_amended "$abc d" "abc").mp (by decide)

/-- C5 counterexample: on a tree whose entry file inserts the same child
twice, the dry run and the live run print different notices — the live run
re-reads the child after rewriting it, the dry run re-reads the original.
(Dry: the second visit sees the original `2`, which now matches; live: the
second visit sees the corrected `1`, which no longer matches.) -/
theorem c5_counterexample :
    (dryFile 2 "m" [("m", ["$c \n", "$c \n"]), ("c", ["## Page 2\n"])] 1).notices =
      [(2, 1)] ∧
    (goFile 2 "m" [("m", ["$c \n", "$c \n"]), ("c", ["## Page 2\n"])] 1).notices =
      [(2, 1), (1, 2)] ∧
    ([(2, 1)] : List (Nat × Nat)) ≠ [(2, 1), (1, 2)] := by
  exact ⟨by decide, by decide, by decide⟩

/-- C5 amended: the dry run touches no file by construction (it opens files
read-only), and provided the traversal opens no file twice, it prints
exactly the notices of the live run over the same tree, opens the same
files, and succeeds or aborts identically. -/
theorem c5_amended (fuel : Nat) (f : String) (fs : FS)
    (h : (dryFile fuel f fs 1).visited.Nodup) :
    (goFile fuel f fs 1).notices = (dryFile fuel f fs 1).notices ∧
    (goFile fuel f fs 1).visited = (dryFile fuel f fs 1).visited ∧
    (goFile fuel f fs 1).final = (dryFile fuel f fs 1).final :=
  simFile fuel f fs fs 1 h (fun _ _ => rfl)

/-- Witness for C5 amended at a concrete two-file tree. -/
theorem c5_amended_witness :
    (goFile 2 "m" [("m", ["## Page 1\n", "$sub \n"]), ("sub", ["## Page 5\n"])] 1).notices =
      (dryFile 2 "m" [("m", ["## Page 1\n", "$sub \n"]), ("sub", ["## Page 5\n"])] 1).notices ∧
    (goFile 2 "m" [("m", ["## Page 1\n", "$sub \n"]), ("sub", ["## Page 5\n"])] 1).visited =
      (dryFile 2 "m" [("m", ["## Page 1\n", "$sub \n"]), ("sub", ["## Page 5\n"])] 1).visited ∧
    (goFile 2 "m" [("m", ["## Page 1\n", "$sub \n"]), ("sub", ["## Page 5\n"])] 1).final =
      (dryFile 2 "m" [("m", ["## Page 1\n", "$sub \n"]), ("sub", ["## Page 5\n"])] 1).final :=
  c5_amended 2 "m" [("m", ["## Page 1\n", "$sub \n"]), ("sub", ["## Page 5\n"])] (by decide)

/-- C6 counterexample: on the same double-insertion tree the engine reaches
a state it maps to itself, yet the second live run still prints two notices
and rewrites the child twice — the second run's ChangeSets are not empty. -/
theorem c6_counterexample :
    (goFile 2 "m"
      ((goFile 2 "m" [("m", ["$c \n", "$c \n"]), ("c", ["## Page 2\n"])] 1).fs) 1).notices =
      [(2, 1), (1, 2)] ∧
    ([(2, 1), (1, 2)] : List (Nat × Nat)) ≠ [] := by
  exact ⟨by decide, by decide⟩

/-- C6 amended: after a completed live run that opened no file twice, a
second live run over the resulting tree prints no notices, modifies no file
(it maps the file system to itself), opens the same files, and ends with the
same counter. -/
theorem c6_amended (fuel : Nat) (f : String) (fs : FS) (np2 : Nat)
    (h1 : (goFile fuel f fs 1).final = some np2)
    (h2 : (goFile fuel f fs 1).visited.Nodup) :
    (goFile fuel f ((goFile fuel f fs 1).fs) 1).notices = [] ∧
    (goFile fuel f ((goFile fuel f fs 1).fs) 1).visited = (goFile fuel f fs 1).visited ∧
    (goFile fuel f ((goFile fuel f fs 1).fs) 1).fs = (goFile fuel f fs 1).fs ∧
    (goFile fuel f ((goFile fuel f fs 1).fs) 1).final = some np2 :=
  noopFile fuel f fs 1 np2 ((goFile fuel f fs 1).fs) h1 h2 (fun _ _ => rfl)

/-- Witness for C6 amended at a concrete two-file tree. -/
theorem c6_amended_witness :
    (goFile 2 "m"
      ((goFile 2 "m" [("m", ["## Page 1\n", "$sub \n", "## Page 2\n"]),
        ("sub", ["## Page 5\n"])] 1).fs) 1).notices = [] ∧
    (goFile 2 "m"
      ((goFile 2 "m" [("m", ["## Page 1\n", "$sub \n", "## Page 2\n"]),
        ("sub", ["## Page 5\n"])] 1).fs) 1).visited =
      (goFile 2 "m" [("m", ["## Page 1\n", "$sub \n", "## Page 2\n"]),
        ("sub", ["## Page 5\n"])] 1).visited ∧
    (goFile 2 "m"
      ((goFile 2 "m" [("m", ["## Page 1\n", "$sub \n", "## Page 2\n"]),
        ("sub", ["## Page 5\n"])] 1).fs) 1).fs =
      (goFile 2 "m" [("m", ["## Page 1\n", "$sub \n", "## Page 2\n"]),
        ("sub", ["## Page 5\n"])] 1).fs ∧
    (goFile 2 "m"
      ((goFile 2 "m" [("m", ["## Page 1\n", "$sub \n", "## Page 2\n"]),
        ("sub", ["## Page 5\n"])] 1).fs) 1).final = some 4 :=
  c6_amended 2 "m" [("m", ["## Page 1\n", "$sub \n", "## Page 2\n"]),
    ("sub", ["## Page 5\n"])] 4 (by decide) (by decide)

/-- C7: for an entry file with a marker declared 1, an insertion of a child
whose first marker is declared 5, and a trailing marker declared 2, the live
run leaves the parent's first marker alone, rewrites the child's marker to 2
(notice old=5 new=2), and rewrites the parent's trailing marker to 3 (notice
old=2 new=3) — exactly two notices, in traversal order, because the counter
is shared with the recursive call. -/
theorem c7_cross_file :
    goFile 2 "m" [("m", ["## Page 1\n", "$sub \n", "## Page 2\n"]),
      ("sub", ["## Page 5\n"])] 1 =
      ⟨[(5, 2), (2, 3)], [(1, 1), (5, 2), (2, 3)], ["m", "sub"],
        [("m", ["## Page 1\n", "$sub \n", "## Page 3\n"]), ("sub", ["## Page 2\n"])],
        some 4⟩ := by
  decide

/-- C8: in live mode, a traversed file whose ChangeSet is empty is a no-op
for that file: the buffered output is byte-for-byte the original lines, the
commit leaves the file system exactly as the children's traversal left it
(the original file untouched, the temporary file deleted rather than
renamed), and any file whose content changed at all was one of the visited
(inserted) files — no stray temporary entry survives a completed run. -/
theorem c8_empty_changeset (fuel : Nat) (f : String) (fs : FS) (np np2 : Nat)
    (lines : List String) (hf : fsFind fs f = some lines)
    (hfin : (goLines (goFile fuel) fs np lines).final = some (np2, false)) :
    (goLines (goFile fuel) fs np lines).out = lines ∧
    goFile (fuel + 1) f fs np =
      ⟨(goLines (goFile fuel) fs np lines).notices,
        (goLines (goFile fuel) fs np lines).marks,
        f :: (goLines (goFile fuel) fs np lines).visited,
        (goLines (goFile fuel) fs np lines).fs, some np2⟩ ∧
    (∀ g, fsFind (goLines (goFile fuel) fs np lines).fs g ≠ fsFind fs g →
      g ∈ (goLines (goFile fuel) fs np lines).visited) :=
  ⟨goLines_out_unchanged (goFile fuel) lines fs np np2 hfin,
   goFile_found_done_false fuel np np2 hf hfin,
   fun g => goLines_frame (goFile fuel) (goFile_frame fuel) lines fs np g
     (by rw [hfin]; rfl)⟩

/-- Witness for C8 at a file whose single marker already matches. -/
theorem c8_empty_changeset_witness :
    (goLines (goFile 0) [("m", ["## Page 1\n"])] 1 ["## Page 1\n"]).out = ["## Page 1\n"] ∧
    goFile 1 "m" [("m", ["## Page 1\n"])] 1 =
      ⟨(goLines (goFile 0) [("m", ["## Page 1\n"])] 1 ["## Page 1\n"]).notices,
        (goLines (goFile 0) [("m", ["## Page 1\n"])] 1 ["## Page 1\n"]).marks,
        "m" :: (goLines (goFile 0) [("m", ["## Page 1\n"])] 1 ["## Page 1\n"]).visited,
        (goLines (goFile 0) [("m", ["## Page 1\n"])] 1 ["## Page 1\n"]).fs, some 2⟩ ∧
    (∀ g, fsFind (goLines (goFile 0) [("m", ["## Page 1\n"])] 1 ["## Page 1\n"]).fs g ≠
        fsFind [("m", ["## Page 1\n"])] g →
      g ∈ (goLines (goFile 0) [("m", ["## Page 1\n"])] 1 ["## Page 1\n"]).visited) :=
  c8_empty_changeset 0 "m" [("m", ["## Page 1\n"])] 1 2 ["## Page 1\n"]
    (by decide) (by decide)

/-- C9: if an insertion directive names a file that cannot be opened, the
run aborts at that directive: the remaining sibling lines are never
processed (the result does not depend on them), while the notices already
printed, the rewrites already committed, and the output buffered so far are
all kept; the same abort happens in dry-run mode. -/
theorem c9_abort (fuel np : Nat) (pre rest : List String) (fs : FS) (l p : String)
    (hl : classify l = LineKind.ins p) :
    (∀ np1 ch1, (goLines (goFile (fuel + 1)) fs np pre).final = some (np1, ch1) →
      fsFind (goLines (goFile (fuel + 1)) fs np pre).fs p = none →
      goLines (goFile (fuel + 1)) fs np (pre ++ l :: rest) =
        ⟨(goLines (goFile (fuel + 1)) fs np pre).notices,
          (goLines (goFile (fuel + 1)) fs np pre).marks,
          (goLines (goFile (fuel + 1)) fs np pre).visited ++ [p],
          (goLines (goFile (fuel + 1)) fs np pre).fs,
          (goLines (goFile (fuel + 1)) fs np pre).out, none⟩) ∧
    (∀ np1, (dryLines (dryFile (fuel + 1)) fs np pre).final = some np1 →
      fsFind fs p = none →
      dryLines (dryFile (fuel + 1)) fs np (pre ++ l :: rest) =
        ⟨(dryLines (dryFile (fuel + 1)) fs np pre).notices,
          (dryLines (dryFile (fuel + 1)) fs np pre).marks,
          (dryLines (dryFile (fuel + 1)) fs np pre).visited ++ [p], none⟩) := by
  constructor
  · intro np1 ch1 hfin hmiss
    have hb1 : goFile (fuel + 1) p ((goLines (goFile (fuel + 1)) fs np pre).fs) np1 =
        ⟨[], [], [p], (goLines (goFile (fuel + 1)) fs np pre).fs, none⟩ :=
      goFile_not_found fuel np1 hmiss
    have hbeq : goLines (goFile (fuel + 1)) ((goLines (goFile (fuel + 1)) fs np pre).fs)
        np1 (l :: rest) =
        ⟨[], [], [p], (goLines (goFile (fuel + 1)) fs np pre).fs, [], none⟩ := by
      rw [goLines_ins_none (goFile (fuel + 1)) _ np1 rest hl (by rw [hb1])]
      rw [hb1]
    rw [goLines_append_abort (goFile (fuel + 1)) pre fs np np1 ch1 (l :: rest) hfin
      (by rw [hbeq])]
    rw [hbeq]
    simp
  · intro np1 hfin hmiss
    have hb1 : dryFile (fuel + 1) p fs np1 = ⟨[], [], [p], none⟩ :=
      dryFile_not_found fuel np1 hmiss
    have hbeq : dryLines (dryFile (fuel + 1)) fs np1 (l :: rest) =
        ⟨[], [], [p], none⟩ := by
      rw [dryLines_ins_none (dryFile (fuel + 1)) fs np1 rest hl (by rw [hb1])]
      rw [hb1]
    rw [dryLines_append_abort (dryFile (fuel + 1)) pre fs np np1 (l :: rest) hfin
      (by rw [hbeq])]
    rw [hbeq]
    simp

/-- Witness for C9 at a concrete tree with a dangling insertion. -/
theorem c9_abort_witness :
    goLines (goFile 1) [] 1 (["## Page 1\n"] ++ "$missing \n" :: ["## Page 7\n"]) =
      ⟨(goLines (goFile 1) [] 1 ["## Page 1\n"]).notices,
        (goLines (goFile 1) [] 1 ["## Page 1\n"]).marks,
        (goLines (goFile 1) [] 1 ["## Page 1\n"]).visited ++ ["missing"],
        (goLines (goFile 1) [] 1 ["## Page 1\n"]).fs,
        (goLines (goFile 1) [] 1 ["## Page 1\n"]).out, none⟩ ∧
    dryLines (dryFile 1) [] 1 (["## Page 1\n"] ++ "$missing \n" :: ["## Page 7\n"]) =
      ⟨(dryLines (dryFile 1) [] 1 ["## Page 1\n"]).notices,
        (dryLines (dryFile 1) [] 1 ["## Page 1\n"]).marks,
        (dryLines (dryFile 1) [] 1 ["## Page 1\n"]).visited ++ ["missing"], none⟩ := by
  have h := c9_abort 0 1 ["## Page 1\n"] ["## Page 7\n"] [] "$missing \n" "missing" (by decide)
  exact ⟨h.1 2 false (by decide) (by decide), h.2 2 (by decide) (by decide)⟩

/-- C10: the word dumper consumes bytes in pairs (h, l); each emitted word
is `h * 2^7 + l / 2` (the low byte's least-significant parity bit dropped),
hence strictly below `2^15`; a final unpaired byte acts as a high byte
paired with a zero low byte. -/
theorem c10_dump (bs : List Nat) (hb : ∀ b ∈ bs, b < 256) :
    (∀ w ∈ dumpWords bs, w < 2 ^ 15) ∧
    (∀ h l rest, bs = h :: l :: rest →
      dumpWords bs = (h * 2 ^ 7 + l / 2) :: dumpWords rest) ∧
    (∀ h, bs = [h] → dumpWords bs = [h * 2 ^ 7 + 0 / 2]) := by
  refine ⟨?_, ?_, ?_⟩
  · intro w hw
    have := dumpWords_lt bs hb w hw
    norm_num
    omega
  · intro h l rest hbs
    subst hbs
    rw [dumpWords]
    rw [word_eq h l (hb l (by simp))]
    norm_num
  · intro h hbs
    subst hbs
    rw [dumpWords, word_eq h 0 (by omega)]
    norm_num

/-- Witness for C10 at a concrete odd-length byte stream. -/
theorem c10_dump_witness :
    (∀ w ∈ dumpWords [1, 3, 255], w < 2 ^ 15) ∧
    (∀ h l rest, ([1, 3, 255] : List Nat) = h :: l :: rest →
      dumpWords [1, 3, 255] = (h * 2 ^ 7 + l / 2) :: dumpWords rest) ∧
    (∀ h, ([1, 3, 255] : List Nat) = [h] → dumpWords [1, 3, 255] = [h * 2 ^ 7 + 0 / 2]) :=
  c10_dump [1, 3, 255] (by decide)

end AgcSpec
